import Mathlib

/-!
Shallow embedding of the core of the `cov` crate (gcov notes/data merging,
flow analysis and reporting), translated from `src/cov/src/graph.rs`,
`src/cov/src/intern.rs`, `src/cov/src/raw.rs` and `src/cov/src/error.rs`,
together with theorems settling the specification claims.

Machine integers (`u32`, `u64`, `usize`) are modelled as `Nat`; arithmetic
that can wrap in release builds (`u64` addition/subtraction of counts) is
taken modulo `2 ^ 64`.  Rust panics (out-of-bounds indexing, `expect`)
are modelled as an explicit `panic` outcome / `Option.none`.
-/

set_option autoImplicit false

namespace Cov

/-! ### Small list helpers (Rust `Vec` indexing and in-place mutation) -/

/-- Option-valued list indexing, the counterpart of `v.get(i)`. -/
def lget {α : Type} : List α → Nat → Option α
  | [], _ => none
  | x :: _, 0 => some x
  | _ :: xs, n + 1 => lget xs n

/-- In-place mutation of one element, the counterpart of `v[i] = f(v[i])`.
Out of range indices leave the list unchanged (Rust would panic; every use
below is either guarded or reached only with valid indices). -/
def listModify {α : Type} : List α → Nat → (α → α) → List α
  | [], _, _ => []
  | x :: xs, 0, f => f x :: xs
  | x :: xs, n + 1, f => x :: listModify xs n f

theorem lget_nil {α : Type} (n : Nat) : lget ([] : List α) n = none := by
  cases n <;> rfl

theorem lget_append_left {α : Type} (l l' : List α) (n : Nat) (h : n < l.length) :
    lget (l ++ l') n = lget l n := by
  induction l generalizing n with
  | nil => exact absurd h (Nat.not_lt_zero n)
  | cons x xs ih =>
    cases n with
    | zero => rfl
    | succ m => exact ih m (Nat.lt_of_succ_lt_succ h)

theorem lget_append_length {α : Type} (l : List α) (x : α) :
    lget (l ++ [x]) l.length = some x := by
  induction l with
  | nil => rfl
  | cons y ys ih => exact ih

theorem lget_eq_some_lt {α : Type} (l : List α) (n : Nat) (a : α)
    (h : lget l n = some a) : n < l.length := by
  induction l generalizing n with
  | nil => simp [lget] at h
  | cons x xs ih =>
    cases n with
    | zero => exact Nat.succ_pos _
    | succ m => exact Nat.succ_lt_succ (ih m h)

theorem lget_none_of_le {α : Type} (l : List α) (n : Nat) (h : l.length ≤ n) :
    lget l n = none := by
  induction l generalizing n with
  | nil => cases n <;> rfl
  | cons x xs ih =>
    cases n with
    | zero => exact absurd h (Nat.not_succ_le_zero _)
    | succ m => exact ih m (Nat.le_of_succ_le_succ h)

theorem length_listModify {α : Type} (l : List α) (i : Nat) (f : α → α) :
    (listModify l i f).length = l.length := by
  induction l generalizing i with
  | nil => rfl
  | cons x xs ih =>
    cases i with
    | zero => rfl
    | succ m => simpa [listModify] using ih m

theorem lget_listModify_eq {α : Type} (l : List α) (i : Nat) (f : α → α) :
    lget (listModify l i f) i = (lget l i).map f := by
  induction l generalizing i with
  | nil => cases i <;> rfl
  | cons x xs ih =>
    cases i with
    | zero => rfl
    | succ m => exact ih m

theorem lget_listModify_ne {α : Type} (l : List α) (i j : Nat) (f : α → α)
    (h : i ≠ j) : lget (listModify l i f) j = lget l j := by
  induction l generalizing i j with
  | nil => cases i <;> rfl
  | cons x xs ih =>
    cases i with
    | zero =>
      cases j with
      | zero => exact absurd rfl h
      | succ m => rfl
    | succ m =>
      cases j with
      | zero => rfl
      | succ m' => exact ih m m' (fun hh => h (congrArg Nat.succ hh))

/-- Pairs every element with its index, starting from `start`
(Rust's `iter().enumerate()`, shifted). -/
def enumFrom {α : Type} : Nat → List α → List (Nat × α)
  | _, [] => []
  | i, x :: xs => (i, x) :: enumFrom (i + 1) xs

/-! ### Association lists modelling `HashMap` / `BTreeMap` contents

`ainsert` replaces the value of the first matching key in place (like
`HashMap::insert` for an existing key) and otherwise appends. -/

def alookup {α β : Type} [DecidableEq α] : List (α × β) → α → Option β
  | [], _ => none
  | (k, v) :: rest, key => if k = key then some v else alookup rest key

def ainsert {α β : Type} [DecidableEq α] : List (α × β) → α → β → List (α × β)
  | [], key, val => [(key, val)]
  | (k, v) :: rest, key, val =>
    if k = key then (k, val) :: rest else (k, v) :: ainsert rest key val

theorem alookup_ainsert_eq {α β : Type} [DecidableEq α]
    (m : List (α × β)) (k : α) (v : β) : alookup (ainsert m k v) k = some v := by
  induction m with
  | nil => simp [ainsert, alookup]
  | cons p rest ih =>
    obtain ⟨k', v'⟩ := p
    by_cases h : k' = k
    · simp [ainsert, h, alookup]
    · simp [ainsert, h, alookup, ih]

theorem alookup_ainsert_ne {α β : Type} [DecidableEq α]
    (m : List (α × β)) (k k' : α) (v : β) (h : k ≠ k') :
    alookup (ainsert m k v) k' = alookup m k' := by
  induction m with
  | nil => simp [ainsert, alookup, h]
  | cons p rest ih =>
    obtain ⟨k₀, v₀⟩ := p
    by_cases h₀ : k₀ = k
    · subst h₀
      simp [ainsert, alookup, h]
    · simp only [ainsert, if_neg h₀]
      by_cases h₁ : k₀ = k'
      · simp [alookup, h₁]
      · simp [alookup, h₁, ih]

theorem ainsert_lookup_self {α β : Type} [DecidableEq α]
    (m : List (α × β)) (k : α) (v : β) (h : alookup m k = some v) :
    ainsert m k v = m := by
  induction m with
  | nil => simp [alookup] at h
  | cons p rest ih =>
    obtain ⟨k₀, v₀⟩ := p
    by_cases h₀ : k₀ = k
    · subst h₀
      simp [alookup] at h
      simp [ainsert, h]
    · simp [alookup, h₀] at h
      simp [ainsert, h₀, ih h]

theorem ainsert_ainsert_same {α β : Type} [DecidableEq α]
    (m : List (α × β)) (k : α) (v v' : β) :
    ainsert (ainsert m k v) k v' = ainsert m k v' := by
  induction m with
  | nil => simp [ainsert]
  | cons p rest ih =>
    obtain ⟨k₀, v₀⟩ := p
    by_cases h₀ : k₀ = k
    · simp [ainsert, h₀]
    · simp [ainsert, h₀, ih]

theorem ainsert_comm_of_mem {α β : Type} [DecidableEq α]
    (m : List (α × β)) (k k' : α) (v v' : β) (hne : k ≠ k')
    (hmem : (alookup m k).isSome) :
    ainsert (ainsert m k v) k' v' = ainsert (ainsert m k' v') k v := by
  induction m with
  | nil => simp [alookup] at hmem
  | cons p rest ih =>
    obtain ⟨k₀, v₀⟩ := p
    by_cases h₀ : k₀ = k
    · subst h₀
      simp [ainsert, hne, Ne.symm hne]
    · by_cases h₁ : k₀ = k'
      · subst h₁
        simp [ainsert, h₀, Ne.symm h₀]
      · simp [alookup, h₀] at hmem
        simp [ainsert, h₀, h₁, ih hmem]

/-! ### String interner (`src/cov/src/intern.rs`)

The `cov` interner wraps an external dense arena (`shawshank::ArenaSet`);
the arena itself is a dependency, not part of this repository.  Modelled
from the spec: `intern` deduplicates strings behind stable handles and
`resolve` fails with `InvalidHandle` for an out-of-range handle (the
source comment at `intern.rs:208-211` records that the arena vector is
dense and `resolve` errs exactly on invalid symbols). -/

/-- The symbol representing the string `"<unknown>"` (`UNKNOWN_SYMBOL`). -/
def UNKNOWN_SYMBOL : Nat := 0

inductive InternError
  | invalidHandle
deriving DecidableEq

structure Interner where
  strings : List String
deriving DecidableEq

/-- A fresh interner, pre-populated with `"<unknown>"` at handle 0. -/
def Interner.new : Interner := ⟨["<unknown>"]⟩

/-- Inserts a string, returning the updated interner and the symbol. -/
def Interner.intern (i : Interner) (s : String) : Interner × Nat :=
  match i.strings.findIdx? (· == s) with
  | some idx => (i, idx)
  | none => (⟨i.strings ++ [s]⟩, i.strings.length)

/-- Resolves a handle back to its string; out-of-range handles fail with
`InvalidHandle`. -/
def Interner.resolve (i : Interner) (h : Nat) : Except InternError String :=
  match lget i.strings h with
  | some s => .ok s
  | none => .error .invalidHandle

theorem findIdx_some_get {α : Type} (p : α → Bool) (l : List α) (idx : Nat)
    (h : l.findIdx? p = some idx) : ∃ a, lget l idx = some a ∧ p a = true := by
  induction l generalizing idx with
  | nil => simp [List.findIdx?] at h
  | cons x xs ih =>
    rw [List.findIdx?_cons] at h
    by_cases hp : p x
    · simp [hp] at h
      subst h
      exact ⟨x, rfl, hp⟩
    · simp [hp] at h
      obtain ⟨j, hj, rfl⟩ := h
      obtain ⟨a, ha, hpa⟩ := ih j hj
      exact ⟨a, ha, hpa⟩

/-- C8. The interner's resolve returns the interned string for a handle
produced by `intern`, remains stable under later interning, and fails with
`InvalidHandle` on every out-of-range handle. -/
theorem c8_interner_resolve :
    (∀ (i : Interner) (s : String),
        (i.intern s).1.resolve (i.intern s).2 = .ok s) ∧
    (∀ (i : Interner) (h : Nat) (r s : String),
        i.resolve h = .ok r → (i.intern s).1.resolve h = .ok r) ∧
    (∀ (i : Interner) (h : Nat),
        i.strings.length ≤ h → i.resolve h = .error .invalidHandle) := by
  refine ⟨?_, ?_, ?_⟩
  · intro i s
    unfold Interner.intern
    cases hidx : i.strings.findIdx? (· == s) with
    | some idx =>
      obtain ⟨a, ha, hpa⟩ := findIdx_some_get (· == s) i.strings idx hidx
      have : a = s := by simpa using hpa
      subst this
      simp [Interner.resolve, ha]
    | none =>
      simp [Interner.resolve, lget_append_length]
  · intro i h r s hok
    unfold Interner.resolve at hok
    cases hg : lget i.strings h with
    | none => simp [hg] at hok
    | some t =>
      rw [hg] at hok
      have hr : t = r := by simpa using hok
      subst hr
      unfold Interner.intern
      cases hidx : i.strings.findIdx? (· == s) with
      | some idx => simp [Interner.resolve, hg]
      | none =>
        have hlt : h < i.strings.length := lget_eq_some_lt _ _ _ hg
        simp [Interner.resolve, lget_append_left _ _ _ hlt, hg]
  · intro i h hle
    simp [Interner.resolve, lget_none_of_le _ _ hle]

/-- Witness for C8 at concrete inputs. -/
theorem c8_interner_resolve_witness :
    (Interner.new.intern "hello").1.resolve (Interner.new.intern "hello").2 =
      .ok "hello" ∧
    Interner.new.resolve 3 = .error .invalidHandle :=
  ⟨c8_interner_resolve.1 Interner.new "hello",
   c8_interner_resolve.2.2 Interner.new 3 (by decide)⟩

/-! ### Attribute bit masks (`src/cov/src/raw.rs`) -/

def ARC_ATTR_ON_TREE : Nat := 1
def ARC_ATTR_FAKE : Nat := 2
def ARC_ATTR_FALLTHROUGH : Nat := 4
def ARC_ATTR_THROW : Nat := 0x10
def ARC_ATTR_CALL_NON_RETURN : Nat := 0x20
def ARC_ATTR_NONLOCAL_RETURN : Nat := 0x40
def ARC_ATTR_UNCONDITIONAL : Nat := 0x80

def BLOCK_ATTR_UNEXPECTED : Nat := 2
def BLOCK_ATTR_CALL_SITE : Nat := 0x1000
def BLOCK_ATTR_CALL_RETURN : Nat := 0x2000
def BLOCK_ATTR_NONLOCAL_RETURN : Nat := 0x4000
def BLOCK_ATTR_EXCEPTIONAL : Nat := 0x8000

/-- An invalid file version (`Version(0)`). -/
def INVALID_VERSION : Nat := 0

/-- GCNO/GCDA version targeting gcc 4.7 (`Version(0x34_30_37_2a)`). -/
def VERSION_4_7 : Nat := 0x3430372a

/-- `usize::MAX` on a 64-bit target. -/
def USIZE_MAX : Nat := 2 ^ 64 - 1

/-- Sentinel function index used before a GCDA `Function` record selected a
function (`INVALID_FUNCTION_INDEX` in `graph.rs`). -/
def INVALID_FUNCTION_INDEX : Nat := USIZE_MAX

/-! ### Raw record model (`src/cov/src/raw.rs`) -/

/-- A source line entry of a basic block: a line number or a filename
handle. -/
inductive Line
  | lineNumber (n : Nat)
  | fileName (sym : Nat)
deriving DecidableEq

/-- Source location of a function (symbols for name/filename, line). -/
structure Source where
  name : Nat
  filename : Nat
  line : Nat
deriving DecidableEq

/-- Information of a function (`raw::Function`). -/
structure Function where
  lineno_checksum : Nat
  cfg_checksum : Nat
  source : Option Source
deriving DecidableEq

/-- List of basic-block attribute bitfields (`raw::Blocks`). -/
structure Blocks where
  flags : List Nat
deriving DecidableEq

/-- An arc going out from the enclosing record's source block. -/
structure Arc where
  dest_block : Nat
  flags : Nat
deriving DecidableEq

/-- List of arcs out of a single basic block (`raw::Arcs`). -/
structure Arcs where
  src_block : Nat
  arcs : List Arc
deriving DecidableEq

/-- Source-line information for one basic block (`raw::Lines`). -/
structure Lines where
  block_number : Nat
  lines : List Line
deriving DecidableEq

/-- A record in a gcov file (`raw::Record`); the `Summary` payload is
irrelevant to the graph and elided. -/
inductive Record
  | function (ident : Nat) (f : Function)
  | blocks (b : Blocks)
  | arcs (a : Arcs)
  | lines (l : Lines)
  | arcCounts (counts : List Nat)
  | summary
deriving DecidableEq

/-- File type (`raw::Type`). -/
inductive GcovType
  | gcno
  | gcda
deriving DecidableEq

/-- The parsed GCNO/GCDA file content (`raw::Gcov`, minus the source path
used only for error context). -/
structure Gcov where
  ty : GcovType
  version : Nat
  stamp : Nat
  records : List Record
deriving DecidableEq

/-! ### Graph store (`src/cov/src/graph.rs`) -/

/-- Block information attached to a CFG node (`graph::BlockInfo`). -/
structure BlockInfo where
  index : Nat
  block : Nat
  count : Option Nat
  attr : Nat
  lines : List Line
deriving DecidableEq, Inhabited

/-- Arc information attached to a CFG edge (`graph::ArcInfo`). -/
structure ArcInfo where
  index : Nat
  arc : Nat
  count : Option Nat
  attr : Nat
deriving DecidableEq

/-- A directed edge of the combined CFG: global source/target node indices
plus the arc payload (petgraph stores endpoints alongside the weight). -/
structure GraphEdge where
  src : Nat
  dst : Nat
  info : ArcInfo
deriving DecidableEq

/-- Function information (`graph::FunctionInfo`): edge indices of real
(non-tree) arcs and node indices, both in insertion order. -/
structure FunctionInfo where
  arcs : List Nat
  nodes : List Nat
  source : Option Source
deriving DecidableEq, Inhabited

/-- The structural notes-side identity of a function
(`graph::GcnoFunctionIdentity`). -/
structure GcnoFunctionIdentity where
  function : Function
  blocks : Blocks
  arcs : List Arcs
  lines : List Lines
deriving DecidableEq

/-- A fresh structural identity from a `Function` record. -/
def GcnoFunctionIdentity.new (f : Function) : GcnoFunctionIdentity :=
  ⟨f, ⟨[]⟩, [], []⟩

/-- The nominal data-side identity of a function
(`graph::GcdaFunctionIdentity`). -/
structure GcdaFunctionIdentity where
  file_checksum : Nat
  ident : Nat
  lineno_checksum : Nat
  cfg_checksum : Nat
deriving DecidableEq

def GcdaFunctionIdentity.ofFunction (checksum ident : Nat) (f : Function) :
    GcdaFunctionIdentity :=
  ⟨checksum, ident, f.lineno_checksum, f.cfg_checksum⟩

/-- The combined control-flow graph (`graph::Graph`).  The petgraph
`DiGraph` is flattened into node and edge lists indexed by insertion
order, matching `NodeIndex`/`EdgeIndex`. -/
structure Graph where
  version : Nat
  functions : List FunctionInfo
  gcno_index : List (GcnoFunctionIdentity × Nat)
  gcda_index : List (GcdaFunctionIdentity × Nat)
  nodes : List BlockInfo
  edges : List GraphEdge
deriving DecidableEq

/-- `Graph::default()`: empty graph with the invalid version. -/
def emptyGraph : Graph := ⟨INVALID_VERSION, [], [], [], [], []⟩

/-- Entry block of a function: `nodes[0]` (`None` models the Rust panic on
an empty node list). -/
def FunctionInfo.entryBlock (f : FunctionInfo) : Option Nat :=
  lget f.nodes 0

/-- Exit block of a function: `nodes[1]` from gcc 4.7 on, else the last
node (`None` models the Rust out-of-bounds panic). -/
def FunctionInfo.exitBlock (f : FunctionInfo) (version : Nat) : Option Nat :=
  if VERSION_4_7 ≤ version then lget f.nodes 1
  else lget f.nodes (f.nodes.length - 1)

/-! ### Merge errors and outcomes (`src/cov/src/error.rs`)

`ErrorKind::RecordWithoutFunction` is referenced by `graph.rs` (with a
`Location::RecordIndex` wrapper carrying the record index) but its
declaration is not among the sources; the variant below carries that
record index directly. `DuplicatedFunction` is declared in `error.rs`
(and documented on `Graph::merge`) and included for completeness. -/

inductive MergeError
  | versionMismatch (expected actual : Nat)
  | recordWithoutFunction (recordIndex : Nat)
  | missingFunction (checksum ident : Nat)
  | duplicatedFunction (checksum ident : Nat)
  | countsMismatch (expected actual : Nat)
deriving DecidableEq

/-- Result of `Graph::merge`: success or error (both keeping the mutated
receiver), or a Rust panic (in which case `merge` never returns and there
is no resulting graph state). -/
inductive MergeOutcome
  | ok (g : Graph)
  | error (e : MergeError) (g : Graph)
  | panic
deriving DecidableEq

def MergeOutcome.isOk : MergeOutcome → Bool
  | .ok _ => true
  | _ => false

/-- The graph state observable after `merge` returns. -/
def stateAfter : MergeOutcome → Option Graph
  | .ok g => some g
  | .error _ g => some g
  | .panic => none

/-- The error returned by `merge`, if any. -/
def errorOf : MergeOutcome → Option MergeError
  | .error e _ => some e
  | _ => none

/-! ### GCNO merge, first pass (`Graph::merge_gcno`, record collection)

Walk the records and collect the pending functions' structural
identities.  `Blocks`/`Arcs`/`Lines` records accumulate into the most
recent `Function`; if none is pending, fail with `RecordWithoutFunction`
carrying the record index.  The accumulator holds the pending list in
reverse so the most recent function is at its head. -/

def collectFis : List Record → Nat → List (Nat × GcnoFunctionIdentity) →
    Except Nat (List (Nat × GcnoFunctionIdentity))
  | [], _, acc => .ok acc.reverse
  | r :: rest, index, acc =>
    match r with
    | .function ident f =>
      collectFis rest (index + 1) ((ident, GcnoFunctionIdentity.new f) :: acc)
    | .blocks b =>
      match acc with
      | [] => .error index
      | (id, fi) :: tail =>
        collectFis rest (index + 1) ((id, { fi with blocks := b }) :: tail)
    | .arcs a =>
      match acc with
      | [] => .error index
      | (id, fi) :: tail =>
        collectFis rest (index + 1) ((id, { fi with arcs := fi.arcs ++ [a] }) :: tail)
    | .lines l =>
      match acc with
      | [] => .error index
      | (id, fi) :: tail =>
        collectFis rest (index + 1) ((id, { fi with lines := fi.lines ++ [l] }) :: tail)
    | _ => collectFis rest (index + 1) acc

/-! ### Adding a GCNO function to the graph (`Graph::add_function`) -/

/-- `Graph::add_blocks`: one node per block attribute, in order; returns
the new graph and the function's node-index list. -/
def addBlocks (g : Graph) (index : Nat) (blocks : Blocks) : Graph × List Nat :=
  let start := g.nodes.length
  let newNodes := (enumFrom 0 blocks.flags).map (fun p =>
    BlockInfo.mk index p.1 none p.2 [])
  ({ g with nodes := g.nodes ++ newNodes },
   (enumFrom 0 blocks.flags).map (fun p => p.1 + start))

/-- One `Arcs` record (`Graph::add_arcs`): each arc becomes an edge; arcs
with `ON_TREE` receive no count and are not tracked as real arcs; other
arcs start at count 0 and their edge index is appended to the real-arc
list.  `none` models the Rust panic on an out-of-range block index. -/
def addArcList (g : Graph) (index : Nat) (fnodes : List Nat) (srcNi : Nat) :
    List Arc → Nat → List Nat → Option (Graph × List Nat)
  | [], _, realAcc => some (g, realAcc)
  | arc :: rest, localIdx, realAcc =>
    match lget fnodes arc.dest_block with
    | none => none
    | some destNi =>
      let isReal := arc.flags &&& ARC_ATTR_ON_TREE == 0
      let ei := g.edges.length
      let g' : Graph := { g with edges := g.edges ++
        [⟨srcNi, destNi, ⟨index, localIdx, if isReal then some 0 else none, arc.flags⟩⟩] }
      addArcList g' index fnodes srcNi rest (localIdx + 1)
        (if isReal then realAcc ++ [ei] else realAcc)

def addArcs (g : Graph) (index : Nat) (fnodes : List Nat) (arcs : Arcs)
    (realAcc : List Nat) : Option (Graph × List Nat) :=
  match lget fnodes arcs.src_block with
  | none => none
  | some srcNi => addArcList g index fnodes srcNi arcs.arcs 0 realAcc

def addArcsAll (g : Graph) (index : Nat) (fnodes : List Nat) :
    List Arcs → List Nat → Option (Graph × List Nat)
  | [], realAcc => some (g, realAcc)
  | arcs :: rest, realAcc =>
    match addArcs g index fnodes arcs realAcc with
    | none => none
    | some (g', realAcc') => addArcsAll g' index fnodes rest realAcc'

/-- Greatest key ≤ `b` in the block-number-to-lines map
(`BTreeMap::range((Unbounded, Included(b))).next_back()`). -/
def rangeBack : List (Nat × List Line) → Nat → Option (Nat × List Line)
  | [], _ => none
  | (k, v) :: rest, b =>
    match rangeBack rest b with
    | none => if k ≤ b then some (k, v) else none
    | some (k', v') => if k ≤ b && k' < k then some (k, v) else some (k', v')

/-- Reverse scan picking the last filename and last line number of a
preceding block's entries (gcc7 inherited-line heuristic in
`Graph::add_lines`). -/
def scanLastLine : List Line → Option Nat → Option Nat → Nat × Nat
  | [], fn, ln => (fn.getD UNKNOWN_SYMBOL, ln.getD 0)
  | .fileName s :: rest, fn, ln =>
    scanLastLine rest (if fn.isNone then some s else fn) ln
  | .lineNumber n :: rest, fn, ln =>
    scanLastLine rest fn (if ln.isNone then some n else ln)

def inheritedLastLine (lines : List Line) : List Line :=
  let p := scanLastLine lines.reverse none none
  [.fileName p.1, .lineNumber p.2]

/-- The line entries attached to a block: its own `Lines` record if
present, else the inherited last line of the nearest preceding block with
entries, else nothing. -/
def blockLinesFor (m : List (Nat × List Line)) (blockNum : Nat) : List Line :=
  match rangeBack m blockNum with
  | none => []
  | some (bn, lines) => if bn = blockNum then lines else inheritedLastLine lines

/-- `Graph::add_lines`: attach line entries to every node of the
function. -/
def addLines (g : Graph) (fnodes : List Nat) (m : List (Nat × List Line)) :
    Graph :=
  fnodes.foldl (fun g ni =>
    { g with nodes := listModify g.nodes ni (fun b =>
        { b with lines := blockLinesFor m b.block }) }) g

/-- `Graph::add_function`: blocks, then all arcs records, then lines.
`none` models the Rust panic on an out-of-range block index. -/
def addFunction (g : Graph) (fi : GcnoFunctionIdentity) : Option Graph :=
  let newIndex := g.functions.length
  let p := addBlocks g newIndex fi.blocks
  match addArcsAll p.1 newIndex p.2 fi.arcs [] with
  | none => none
  | some (g2, realArcs) =>
    let m := fi.lines.foldl (fun m l => ainsert m l.block_number l.lines) []
    let g3 := addLines g2 p.2 m
    some { g3 with functions := g3.functions ++ [⟨realArcs, p.2, fi.function.source⟩] }

/-! ### GCNO merge, second pass (`Graph::merge_gcno`) -/

/-- For each collected function: an existing structural identity only
gains a data-index entry; a new one creates the function and both index
entries. -/
def mergeFis (g : Graph) (stamp : Nat) :
    List (Nat × GcnoFunctionIdentity) → MergeOutcome
  | [] => .ok g
  | (ident, fi) :: rest =>
    let gcdaId := GcdaFunctionIdentity.ofFunction stamp ident fi.function
    match alookup g.gcno_index fi with
    | some pos =>
      mergeFis { g with gcda_index := ainsert g.gcda_index gcdaId pos } stamp rest
    | none =>
      match addFunction g fi with
      | none => .panic
      | some g' =>
        let newIndex := g.functions.length
        mergeFis { g' with gcda_index := ainsert g'.gcda_index gcdaId newIndex,
                           gcno_index := ainsert g'.gcno_index fi newIndex } stamp rest

def mergeGcno (g : Graph) (gcno : Gcov) : MergeOutcome :=
  match collectFis gcno.records 0 [] with
  | .error idx => .error (.recordWithoutFunction idx) g
  | .ok fis => mergeFis g gcno.stamp fis

/-! ### GCDA merge (`Graph::merge_gcda`, `Graph::add_arc_counts`) -/

/-- Element-wise accumulation of arc counts onto the function's real arcs
(the loop body of `Graph::add_arc_counts`); u64 addition wraps. -/
def applyCounts (g : Graph) : List Nat → List Nat → Graph
  | ei :: eis, c :: cs =>
    applyCounts
      { g with edges := listModify g.edges ei (fun e =>
          { e with info := { e.info with count :=
              match e.info.count with
              | none => some c
              | some t => some ((t + c) % 2 ^ 64) } }) } eis cs
  | _, _ => g

/-- `Graph::add_arc_counts`: panic on an invalid current-function index
(`INVALID_FUNCTION_INDEX` before any `Function` record), `CountsMismatch`
if the record length differs from the function's real-arc count, else
element-wise accumulation. -/
def addArcCounts (g : Graph) (index : Nat) (counts : List Nat) : MergeOutcome :=
  match lget g.functions index with
  | none => .panic
  | some function =>
    if counts.length = function.arcs.length then
      .ok (applyCounts g function.arcs counts)
    else
      .error (.countsMismatch counts.length function.arcs.length) g

def mergeGcdaLoop (g : Graph) (checksum : Nat) (cur : Nat) :
    List Record → MergeOutcome
  | [] => .ok g
  | r :: rest =>
    match r with
    | .function ident f =>
      match alookup g.gcda_index (GcdaFunctionIdentity.ofFunction checksum ident f) with
      | none => .error (.missingFunction checksum ident) g
      | some pos => mergeGcdaLoop g checksum pos rest
    | .arcCounts ac =>
      match addArcCounts g cur ac with
      | .ok g' => mergeGcdaLoop g' checksum cur rest
      | out => out
    | _ => mergeGcdaLoop g checksum cur rest

def mergeGcda (g : Graph) (gcda : Gcov) : MergeOutcome :=
  mergeGcdaLoop g gcda.stamp INVALID_FUNCTION_INDEX gcda.records

/-! ### `Graph::merge` -/

def mergeDispatch (g : Graph) (gcov : Gcov) : MergeOutcome :=
  match gcov.ty with
  | .gcno => mergeGcno g gcov
  | .gcda => mergeGcda g gcov

/-- `Graph::merge`: on the first merge adopt the file's version, else
require exact equality; then dispatch on the file kind. -/
def merge (g : Graph) (gcov : Gcov) : MergeOutcome :=
  if g.version = INVALID_VERSION then
    mergeDispatch { g with version := gcov.version } gcov
  else if g.version = gcov.version then
    mergeDispatch g gcov
  else
    .error (.versionMismatch g.version gcov.version) g

/-! ### Version preservation: no merge path mutates `version` after the
initial adoption step in `Graph::merge`. -/

theorem applyCounts_version (eis cs : List Nat) (g : Graph) :
    (applyCounts g eis cs).version = g.version := by
  induction eis generalizing g cs with
  | nil => cases cs <;> rfl
  | cons ei eis ih =>
    cases cs with
    | nil => rfl
    | cons c cs => exact ih _ _

theorem addArcList_version (arcs : List Arc) (g : Graph) (index : Nat)
    (fnodes : List Nat) (srcNi localIdx : Nat) (realAcc : List Nat)
    (g' : Graph) (realArcs : List Nat)
    (h : addArcList g index fnodes srcNi arcs localIdx realAcc = some (g', realArcs)) :
    g'.version = g.version := by
  induction arcs generalizing g localIdx realAcc with
  | nil =>
    simp [addArcList] at h
    rw [h.1]
  | cons arc rest ih =>
    unfold addArcList at h
    cases hd : lget fnodes arc.dest_block with
    | none => rw [hd] at h; exact absurd h (by simp)
    | some destNi =>
      rw [hd] at h
      dsimp only at h
      have hv := ih _ _ _ h
      exact hv

theorem addArcsAll_version (arcsList : List Arcs) (g : Graph) (index : Nat)
    (fnodes : List Nat) (realAcc : List Nat) (g' : Graph) (realArcs : List Nat)
    (h : addArcsAll g index fnodes arcsList realAcc = some (g', realArcs)) :
    g'.version = g.version := by
  induction arcsList generalizing g realAcc with
  | nil =>
    simp [addArcsAll] at h
    rw [h.1]
  | cons arcs rest ih =>
    unfold addArcsAll at h
    cases ha : addArcs g index fnodes arcs realAcc with
    | none => rw [ha] at h; exact absurd h (by simp)
    | some p =>
      rw [ha] at h
      dsimp only at h
      have hv : p.1.version = g.version := by
        unfold addArcs at ha
        cases hs : lget fnodes arcs.src_block with
        | none => rw [hs] at ha; exact absurd ha (by simp)
        | some srcNi =>
          rw [hs] at ha
          dsimp only at ha
          exact addArcList_version _ _ _ _ _ _ _ _ _ ha
      calc g'.version = p.1.version := ih p.1 p.2 h
        _ = g.version := hv

theorem addLines_version (fnodes : List Nat) (g : Graph)
    (m : List (Nat × List Line)) : (addLines g fnodes m).version = g.version := by
  induction fnodes generalizing g with
  | nil => rfl
  | cons n rest ih =>
    unfold addLines at ih ⊢
    rw [List.foldl_cons]
    exact ih _

theorem addFunction_version (g : Graph) (fi : GcnoFunctionIdentity) (g' : Graph)
    (h : addFunction g fi = some g') : g'.version = g.version := by
  unfold addFunction at h
  dsimp only at h
  cases ha : addArcsAll (addBlocks g g.functions.length fi.blocks).1
      g.functions.length (addBlocks g g.functions.length fi.blocks).2 fi.arcs [] with
  | none => rw [ha] at h; exact absurd h (by simp)
  | some p =>
    obtain ⟨g2, realArcs⟩ := p
    rw [ha] at h
    dsimp only at h
    have h' : g'.version = (addLines g2 (addBlocks g g.functions.length fi.blocks).2
        (fi.lines.foldl (fun m l => ainsert m l.block_number l.lines) [])).version := by
      have := h
      simp at this
      rw [← this]
    rw [h', addLines_version]
    have hv := addArcsAll_version _ _ _ _ _ _ _ ha
    exact hv

theorem mergeFis_version (fis : List (Nat × GcnoFunctionIdentity)) (g : Graph)
    (stamp : Nat) (g' : Graph)
    (h : stateAfter (mergeFis g stamp fis) = some g') : g'.version = g.version := by
  induction fis generalizing g with
  | nil =>
    simp [mergeFis, stateAfter] at h
    rw [h]
  | cons p rest ih =>
    obtain ⟨ident, fi⟩ := p
    unfold mergeFis at h
    dsimp only at h
    cases hl : alookup g.gcno_index fi with
    | some pos =>
      rw [hl] at h
      dsimp only at h
      have hv := ih _ h
      exact hv
    | none =>
      rw [hl] at h
      dsimp only at h
      cases hf : addFunction g fi with
      | none => rw [hf] at h; exact absurd h (by simp [stateAfter])
      | some gA =>
        rw [hf] at h
        dsimp only at h
        have hv := ih _ h
        calc g'.version = gA.version := hv
          _ = g.version := addFunction_version _ _ _ hf

theorem mergeGcdaLoop_version (records : List Record) (g : Graph)
    (checksum cur : Nat) (g' : Graph)
    (h : stateAfter (mergeGcdaLoop g checksum cur records) = some g') :
    g'.version = g.version := by
  induction records generalizing g cur with
  | nil =>
    simp [mergeGcdaLoop, stateAfter] at h
    rw [h]
  | cons r rest ih =>
    unfold mergeGcdaLoop at h
    cases r with
    | function ident f =>
      dsimp only at h
      cases hl : alookup g.gcda_index (GcdaFunctionIdentity.ofFunction checksum ident f) with
      | none =>
        rw [hl] at h
        simp [stateAfter] at h
        rw [h]
      | some pos =>
        rw [hl] at h
        dsimp only at h
        exact ih _ _ h
    | arcCounts ac =>
      dsimp only at h
      unfold addArcCounts at h
      cases hf : lget g.functions cur with
      | none => rw [hf] at h; exact absurd h (by simp [stateAfter])
      | some fn =>
        rw [hf] at h
        dsimp only at h
        by_cases hlen : ac.length = fn.arcs.length
        · rw [if_pos hlen] at h
          dsimp only at h
          calc g'.version = (applyCounts g fn.arcs ac).version := ih _ _ h
            _ = g.version := applyCounts_version _ _ _
        · rw [if_neg hlen] at h
          simp [stateAfter] at h
          rw [h]
    | blocks b => exact ih _ _ h
    | arcs a => exact ih _ _ h
    | lines l => exact ih _ _ h
    | summary => exact ih _ _ h

theorem mergeDispatch_version (g : Graph) (f : Gcov) (g' : Graph)
    (h : stateAfter (mergeDispatch g f) = some g') : g'.version = g.version := by
  unfold mergeDispatch at h
  cases hty : f.ty with
  | gcno =>
    rw [hty] at h
    dsimp only at h
    unfold mergeGcno at h
    cases hc : collectFis f.records 0 [] with
    | error idx =>
      rw [hc] at h
      simp [stateAfter] at h
      rw [h]
    | ok fis =>
      rw [hc] at h
      dsimp only at h
      exact mergeFis_version _ _ _ _ h
  | gcda =>
    rw [hty] at h
    dsimp only at h
    exact mergeGcdaLoop_version _ _ _ _ _ h

/-- C3. The first merge into an empty graph adopts the file's version;
every later merge with a differing version fails with `VersionMismatch`
leaving the whole graph (functions, indices, nodes, edges included)
unchanged; and no returning merge ever changes an adopted version. -/
theorem c3_version_adoption_and_mismatch (g0 : Graph) (f1 : Gcov)
    (hempty : g0.version = INVALID_VERSION)
    (hv1 : f1.version ≠ INVALID_VERSION) :
    (∀ g1, stateAfter (merge g0 f1) = some g1 →
        g1.version = f1.version ∧
        ∀ f2, f2.version ≠ f1.version →
          merge g1 f2 = .error (.versionMismatch f1.version f2.version) g1) ∧
    (∀ (g : Graph) (f : Gcov) (g' : Graph), g.version ≠ INVALID_VERSION →
        stateAfter (merge g f) = some g' → g'.version = g.version) := by
  constructor
  · intro g1 h1
    unfold merge at h1
    rw [if_pos hempty] at h1
    have hver : g1.version = f1.version := mergeDispatch_version _ _ _ h1
    refine ⟨hver, fun f2 hne => ?_⟩
    unfold merge
    rw [hver]
    rw [if_neg hv1, if_neg (fun hh => hne hh.symm)]
  · intro g f g' hne h
    unfold merge at h
    rw [if_neg hne] at h
    by_cases heq : g.version = f.version
    · rw [if_pos heq] at h
      exact mergeDispatch_version _ _ _ h
    · rw [if_neg heq] at h
      simp [stateAfter] at h
      rw [h]

/-! ### Concrete inputs used by witnesses and counterexamples -/

/-- A minimal valid GCNO: one function, two blocks, a single `ON_TREE`
arc from the entry to the exit block. -/
def gcovTrivial : Gcov :=
  ⟨.gcno, VERSION_4_7, 42, [
    .function 1 ⟨0, 0, none⟩,
    .blocks ⟨[0, 0]⟩,
    .arcs ⟨0, [⟨1, ARC_ATTR_ON_TREE⟩]⟩]⟩

/-- The graph after merging `gcovTrivial` into an empty graph. -/
def graphTrivial : Graph := (stateAfter (merge emptyGraph gcovTrivial)).getD emptyGraph

/-- A GCDA with a mismatching version. -/
def gcovWrongVersion : Gcov := ⟨.gcda, 0x3430322a, 42, []⟩

/-- Witness for C3: merging `gcovTrivial` adopts `"407*"`, and a
subsequent `"402*"` data file fails with `VersionMismatch`, graph
untouched. -/
theorem c3_version_witness :
    merge graphTrivial gcovWrongVersion =
      .error (.versionMismatch VERSION_4_7 0x3430322a) graphTrivial :=
  ((c3_version_adoption_and_mismatch emptyGraph gcovTrivial (by decide)
      (by decide)).1 graphTrivial (by rfl)).2 gcovWrongVersion (by decide)

/-- C9. A data file whose first record is `ArcCounts` (no `Function`
record before it) drives `add_arc_counts` with the sentinel
`INVALID_FUNCTION_INDEX`; indexing the function vector panics instead of
returning `MissingFunction` (or any other taxonomy error). -/
theorem c9_counts_before_function_panics (g : Graph) (f : Gcov)
    (ac : List Nat) (rest : List Record)
    (hty : f.ty = .gcda)
    (hver : g.version = INVALID_VERSION ∨ f.version = g.version)
    (hrec : f.records = .arcCounts ac :: rest)
    (hlen : g.functions.length ≤ INVALID_FUNCTION_INDEX) :
    merge g f = .panic := by
  have hloop : ∀ g' : Graph, g'.functions = g.functions →
      mergeGcdaLoop g' f.stamp INVALID_FUNCTION_INDEX f.records = .panic := by
    intro g' hfns
    rw [hrec]
    unfold mergeGcdaLoop addArcCounts
    rw [hfns, lget_none_of_le _ _ hlen]
  unfold merge
  by_cases hg0 : g.version = INVALID_VERSION
  · rw [if_pos hg0]
    unfold mergeDispatch
    rw [hty]
    exact hloop _ rfl
  · rcases hver with hver | hver
    · exact absurd hver hg0
    · rw [if_neg hg0, if_pos hver.symm]
      unfold mergeDispatch
      rw [hty]
      exact hloop _ rfl

/-- A GCDA whose first record is an `ArcCounts` record. -/
def gcovOrphanCounts : Gcov := ⟨.gcda, VERSION_4_7, 42, [.arcCounts [1]]⟩

/-- Witness for C9 at a concrete input. -/
theorem c9_counts_before_function_panics_witness :
    merge graphTrivial gcovOrphanCounts = .panic :=
  c9_counts_before_function_panics graphTrivial gcovOrphanCounts [1] []
    rfl (Or.inr (by decide)) rfl (by decide)

/-! ### C10: `Blocks`/`Arcs`/`Lines` before the first `Function` record -/

/-- Records that accumulate into a pending function and hence need one. -/
def isPendingRecord : Record → Bool
  | .blocks _ => true
  | .arcs _ => true
  | .lines _ => true
  | _ => false

/-- Records that `merge_gcno`'s first pass ignores. -/
def isInertRecord : Record → Bool
  | .arcCounts _ => true
  | .summary => true
  | _ => false

theorem collectFis_error_first (records : List Record) (i : Nat) (r : Record)
    (hr : lget records i = some r) (hp : isPendingRecord r = true)
    (hpre : ∀ j rj, j < i → lget records j = some rj → isInertRecord rj = true) :
    ∀ start, collectFis records start [] = .error (start + i) := by
  induction records generalizing i with
  | nil => simp [lget_nil] at hr
  | cons x rest ih =>
    intro start
    cases i with
    | zero =>
      have hx : x = r := by simpa [lget] using hr
      subst hx
      cases x <;> simp [isPendingRecord] at hp <;> simp [collectFis]
    | succ m =>
      have hin : isInertRecord x = true := hpre 0 x (Nat.succ_pos m) rfl
      have hrest := ih m hr (fun j rj hj hrj => hpre (j + 1) rj
        (Nat.succ_lt_succ hj) hrj)
      have hgoal : collectFis (x :: rest) start [] =
          collectFis rest (start + 1) [] := by
        cases x <;> simp [isInertRecord] at hin <;> simp [collectFis]
      rw [hgoal, hrest (start + 1)]
      simp [Nat.add_assoc, Nat.add_comm 1 m]

/-- C10 (amended). A notes file in which a `Blocks`, `Arcs` or `Lines`
record precedes the first `Function` record fails with
`RecordWithoutFunction` carrying the index of the first such record; the
functions, both indices, nodes and edges are unchanged, but the version
has already been adopted when this was the first merge. -/
theorem c10_record_without_function (g : Graph) (f : Gcov) (i : Nat) (r : Record)
    (hty : f.ty = .gcno)
    (hver : g.version = INVALID_VERSION ∨ f.version = g.version)
    (hr : lget f.records i = some r)
    (hp : isPendingRecord r = true)
    (hpre : ∀ j rj, j < i → lget f.records j = some rj → isInertRecord rj = true) :
    merge g f = .error (.recordWithoutFunction i)
      { g with version := if g.version = INVALID_VERSION then f.version else g.version } := by
  have hcol : collectFis f.records 0 [] = .error i := by
    have := collectFis_error_first f.records i r hr hp hpre 0
    simpa using this
  unfold merge
  by_cases hg0 : g.version = INVALID_VERSION
  · rw [if_pos hg0]
    unfold mergeDispatch
    rw [hty]
    unfold mergeGcno
    rw [hcol, if_pos hg0]
  · rcases hver with hver | hver
    · exact absurd hver hg0
    · rw [if_neg hg0, if_pos hver.symm]
      unfold mergeDispatch
      rw [hty]
      unfold mergeGcno
      rw [hcol, if_neg hg0]

/-- A notes file whose first record is a `Blocks` record. -/
def gcovC10 : Gcov := ⟨.gcno, VERSION_4_7, 7, [.blocks ⟨[0]⟩]⟩

/-- Counterexample for C10 as stated: the merge does fail with
`RecordWithoutFunction` at index 0, but the graph is **not** left
unchanged — the empty graph's version has been adopted. -/
theorem c10_counterexample :
    errorOf (merge emptyGraph gcovC10) = some (.recordWithoutFunction 0) ∧
    stateAfter (merge emptyGraph gcovC10) ≠ some emptyGraph := by
  decide

/-- Witness for the amended C10 at a concrete input with an already
adopted version (graph fully unchanged there). -/
theorem c10_record_without_function_witness :
    merge graphTrivial ⟨.gcno, VERSION_4_7, 7, [.blocks ⟨[0]⟩]⟩ =
      .error (.recordWithoutFunction 0) graphTrivial := by
  have h := c10_record_without_function graphTrivial
      ⟨.gcno, VERSION_4_7, 7, [.blocks ⟨[0]⟩]⟩ 0 (.blocks ⟨[0]⟩)
      rfl (Or.inr (by decide)) rfl rfl
      (fun j rj hj _ => absurd hj (Nat.not_lt_zero j))
  rw [h]
  decide

/-! ### C7: duplicated nominal data-identity -/

/-- A GCNO with one function, used twice. -/
def gcovDup : Gcov :=
  ⟨.gcno, VERSION_4_7, 10, [
    .function 1 ⟨11, 22, none⟩,
    .blocks ⟨[0, 0]⟩,
    .arcs ⟨0, [⟨1, ARC_ATTR_ON_TREE⟩]⟩]⟩

/-- The graph after merging `gcovDup` once. -/
def graphDup : Graph := (stateAfter (merge emptyGraph gcovDup)).getD emptyGraph

/-- Counterexample for C7: the nominal data-identity of `gcovDup` is
already in the data-index of `graphDup`, yet re-merging the same notes
file (which re-inserts that identity) succeeds instead of failing with
`DuplicatedFunction`. -/
theorem c7_counterexample :
    (alookup graphDup.gcda_index
        (GcdaFunctionIdentity.ofFunction 10 1 ⟨11, 22, none⟩)).isSome = true ∧
    (merge graphDup gcovDup).isOk = true := by
  decide

/-! ### C2: arc-count accumulation (`Graph::add_arc_counts`) -/

theorem lget_mem {α : Type} (l : List α) (n : Nat) (a : α)
    (h : lget l n = some a) : a ∈ l := by
  induction l generalizing n with
  | nil => simp [lget] at h
  | cons x xs ih =>
    cases n with
    | zero =>
      have : x = a := by simpa [lget] using h
      exact this ▸ List.mem_cons_self x xs
    | succ m => exact List.mem_cons_of_mem x (ih m h)

theorem applyCounts_lget_notin (eis : List Nat) (g : Graph) (cs : List Nat)
    (j : Nat) (hj : j ∉ eis) :
    lget (applyCounts g eis cs).edges j = lget g.edges j := by
  induction eis generalizing g cs with
  | nil => cases cs <;> rfl
  | cons ei rest ih =>
    cases cs with
    | nil => rfl
    | cons c cs =>
      have hne : ei ≠ j := fun hh => hj (hh ▸ List.mem_cons_self ei rest)
      have hj' : j ∉ rest := fun hh => hj (List.mem_cons_of_mem ei hh)
      unfold applyCounts
      rw [ih _ _ hj']
      exact lget_listModify_ne _ _ _ _ hne

theorem applyCounts_lget_at (eis : List Nat) (g : Graph) (cs : List Nat)
    (hnd : eis.Nodup) (k ek ck : Nat)
    (hk : lget eis k = some ek) (hck : lget cs k = some ck) (hc : ck < 2 ^ 64) :
    lget (applyCounts g eis cs).edges ek = (lget g.edges ek).map (fun e =>
      { e with info := { e.info with
          count := some ((e.info.count.getD 0 + ck) % 2 ^ 64) } }) := by
  induction eis generalizing g cs k with
  | nil => simp [lget] at hk
  | cons ei rest ih =>
    cases cs with
    | nil => simp [lget_nil] at hck
    | cons c cs =>
      have hnotin : ei ∉ rest := (List.nodup_cons.mp hnd).1
      have hndr : rest.Nodup := (List.nodup_cons.mp hnd).2
      cases k with
      | zero =>
        have hek : ei = ek := by simpa [lget] using hk
        have hckc : c = ck := by simpa [lget] using hck
        subst hek
        subst hckc
        unfold applyCounts
        rw [applyCounts_lget_notin _ _ _ _ hnotin, lget_listModify_eq]
        cases lget g.edges ei with
        | none => rfl
        | some e =>
          cases hcnt : e.info.count with
          | none =>
            simp [hcnt]
            exact (Nat.mod_eq_of_lt hc).symm
          | some t =>
            simp [hcnt]
      | succ m =>
        have hk' : lget rest m = some ek := hk
        have hck' : lget cs m = some ck := hck
        have hne : ei ≠ ek := fun hh => hnotin (hh ▸ lget_mem _ _ _ hk')
        unfold applyCounts
        rw [ih _ _ hndr m hk' hck', lget_listModify_ne _ _ _ _ hne]

/-- C2. With a function selected, an `ArcCounts` record fails with
`CountsMismatch` (leaving the graph unchanged) exactly when its length
differs from the function's count of real (non-`ON_TREE`) arcs; otherwise
it succeeds and each count is added element-wise (mod `2 ^ 64`) to the
corresponding real arc's running total, in insertion order, all other
edges untouched. -/
theorem c2_arc_counts_accumulate (g : Graph) (idx : Nat) (f : FunctionInfo)
    (counts : List Nat)
    (hf : lget g.functions idx = some f)
    (hnd : f.arcs.Nodup)
    (hc : ∀ c ∈ counts, c < 2 ^ 64) :
    (counts.length ≠ f.arcs.length →
        addArcCounts g idx counts =
          .error (.countsMismatch counts.length f.arcs.length) g) ∧
    (counts.length = f.arcs.length →
        (addArcCounts g idx counts).isOk = true ∧
        ∀ g', addArcCounts g idx counts = .ok g' →
          (∀ k ek ck, lget f.arcs k = some ek → lget counts k = some ck →
              lget g'.edges ek = (lget g.edges ek).map (fun e =>
                { e with info := { e.info with
                    count := some ((e.info.count.getD 0 + ck) % 2 ^ 64) } })) ∧
          (∀ j, j ∉ f.arcs → lget g'.edges j = lget g.edges j)) := by
  constructor
  · intro hne
    unfold addArcCounts
    rw [hf]
    dsimp only
    rw [if_neg hne]
  · intro hlen
    have hok : addArcCounts g idx counts = .ok (applyCounts g f.arcs counts) := by
      unfold addArcCounts
      rw [hf]
      dsimp only
      rw [if_pos hlen]
    refine ⟨by rw [hok]; rfl, fun g' hg' => ?_⟩
    rw [hok] at hg'
    have hg'' : g' = applyCounts g f.arcs counts := by
      cases hg'
      rfl
    subst hg''
    constructor
    · intro k ek ck hek hck
      exact applyCounts_lget_at _ _ _ hnd k ek ck hek hck
        (hc ck (lget_mem _ _ _ hck))
    · intro j hj
      exact applyCounts_lget_notin _ _ _ _ hj

/-- A GCNO with two real arcs, used as the C2 witness graph. -/
def gcovTwoArcs : Gcov :=
  ⟨.gcno, VERSION_4_7, 5, [
    .function 3 ⟨1, 2, none⟩,
    .blocks ⟨[0, 0, 0]⟩,
    .arcs ⟨0, [⟨2, 0⟩]⟩,
    .arcs ⟨2, [⟨1, 0⟩]⟩]⟩

def graphTwoArcs : Graph := (stateAfter (merge emptyGraph gcovTwoArcs)).getD emptyGraph

/-- Witness for C2: a length-1 record against a 2-real-arc function fails
with `CountsMismatch` and leaves the graph unchanged. -/
theorem c2_arc_counts_accumulate_witness :
    addArcCounts graphTwoArcs 0 [9] =
      .error (.countsMismatch 1 2) graphTwoArcs :=
  (c2_arc_counts_accumulate graphTwoArcs 0
      ((lget graphTwoArcs.functions 0).getD default) [9]
      (by decide) (by decide) (by decide)).1 (by decide)

/-! ### Report branches (`Graph::report`, `Graph::report_arc`)

Only the branch-emission part of the report is needed by the claims: for
each block with line information, the branches appended to its last
(filename, line) pair's line record. -/

/-- A `Branch` record of the report (`report::Branch`). -/
structure Branch where
  count : Nat
  attr : Nat
  filename : Nat
  line : Nat
  column : Nat
deriving DecidableEq

/-- Stateful scan of a block's line entries: a filename entry updates the
current filename, a line-number entry emits a (filename, line) pair
(`BlockInfo::iter_lines`). -/
def iterLinesGo : List Line → Nat → List (Nat × Nat)
  | [], _ => []
  | .fileName f :: rest, _ => iterLinesGo rest f
  | .lineNumber n :: rest, f => (f, n) :: iterLinesGo rest f

def BlockInfo.iterLines (b : BlockInfo) : List (Nat × Nat) :=
  iterLinesGo b.lines UNKNOWN_SYMBOL

/-- The branch origin: the block's last (filename, line) pair. -/
def lastLinePair (b : BlockInfo) : Option (Nat × Nat) :=
  b.iterLines.getLast?

/-- The branch record built for an arc (the non-ignored case of
`Graph::report_arc`): destination filename/line from the first line pair
of the target block, `("<unknown>", 0)` when absent. -/
def branchOf (g : Graph) (e : GraphEdge) : Branch :=
  let dest := (lget g.nodes e.dst).getD default
  let fl := dest.iterLines.head?.getD (UNKNOWN_SYMBOL, 0)
  ⟨e.info.count.getD 0, e.info.attr, fl.1, fl.2, 0⟩

/-- `Graph::report_arc`: unconditional arcs that are not
`CALL_NON_RETURN` are ignored, other arcs produce a branch record. -/
def reportArc (g : Graph) (e : GraphEdge) : Option Branch :=
  if e.info.attr &&& ARC_ATTR_UNCONDITIONAL ≠ 0 ∧
      e.info.attr &&& ARC_ATTR_CALL_NON_RETURN = 0 then none
  else some (branchOf g e)

/-- Outgoing edges of a node, in insertion order (petgraph iterates them
in reverse insertion order; no claim depends on the order). -/
def outgoingEdges (g : Graph) (src : Nat) : List GraphEdge :=
  g.edges.filter (fun e => e.src == src)

/-- The branch loop of `Graph::report` for one block: nothing is appended
when the block has no (filename, line) pair; otherwise each outgoing edge
is reported, skipping zero arcs leading to the exit block, via
`report_arc`.  `none` models the Rust panic on a missing function or exit
block. -/
def reportBlockBranches (g : Graph) (src : Nat) : Option (List Branch) :=
  match lget g.nodes src with
  | none => none
  | some block =>
    match lastLinePair block with
    | none => some []
    | some _ =>
      match lget g.functions block.index with
      | none => none
      | some function =>
        match function.exitBlock g.version with
        | none => none
        | some exitBlk =>
          some ((outgoingEdges g src).filterMap (fun e =>
            if e.dst = exitBlk ∧ e.info.count = some 0 then none
            else reportArc g e))

/-- A graph in the state reached right after analysis: one function with
entry and exit block, one `UNCONDITIONAL` arc with count 1 into the exit
block, and line information on the entry block. -/
def graphC5 : Graph :=
  ⟨VERSION_4_7,
   [⟨[0], [0, 1], none⟩],
   [], [],
   [⟨0, 0, some 1, 0, [.fileName 1, .lineNumber 5]⟩,
    ⟨0, 1, some 1, 0, []⟩],
   [⟨0, 1, ⟨0, 0, some 1, ARC_ATTR_UNCONDITIONAL⟩⟩]⟩

/-- Counterexample for C5 as stated: block 0 of `graphC5` has a line
pair, its single outgoing edge goes to the exit block with count 1 (so
the claim's only exception does not apply and exactly one branch should
be appended), yet no branch is appended — the arc is dropped by the
second, unstated omission rule for `UNCONDITIONAL` non-`CALL_NON_RETURN`
arcs. -/
theorem c5_counterexample :
    (lastLinePair ((lget graphC5.nodes 0).getD default)).isSome = true ∧
    ((lget graphC5.functions 0).getD default).exitBlock graphC5.version = some 1 ∧
    ((outgoingEdges graphC5 0).filter (fun e =>
        !(e.dst == 1 && e.info.count == some 0))).length = 1 ∧
    reportBlockBranches graphC5 0 = some [] := by
  decide

theorem filterMap_eq_filter_map {α β : Type} (l : List α) (f : α → Option β)
    (p : α → Bool) (m : α → β)
    (h : ∀ a ∈ l, f a = if p a then some (m a) else none) :
    l.filterMap f = (l.filter p).map m := by
  induction l with
  | nil => rfl
  | cons x xs ih =>
    have hx := h x (List.mem_cons_self x xs)
    have hxs := ih (fun a ha => h a (List.mem_cons_of_mem x ha))
    by_cases hp : p x
    · rw [hp] at hx
      simp only [List.filterMap_cons, hx, if_pos trivial, List.filter_cons, hp,
        if_pos trivial, List.map_cons, hxs]
    · have hp' : p x = false := by simpa using hp
      rw [hp'] at hx
      simp only [List.filterMap_cons, hx, List.filter_cons, hp']
      simpa using hxs

/-- C5 (amended). For every block with at least one (filename, line)
pair, a branch is appended to the last pair's line for each outgoing edge
of the block, with two exceptions: edges into the owning function's exit
block whose count is 0, and `UNCONDITIONAL` edges without
`CALL_NON_RETURN`. -/
theorem c5_report_branches (g : Graph) (src : Nat) (block : BlockInfo)
    (fi : FunctionInfo) (exitBlk : Nat)
    (hb : lget g.nodes src = some block)
    (hl : (lastLinePair block).isSome = true)
    (hfi : lget g.functions block.index = some fi)
    (hex : fi.exitBlock g.version = some exitBlk) :
    reportBlockBranches g src = some (((outgoingEdges g src).filter (fun e =>
        !(decide (e.dst = exitBlk ∧ e.info.count = some 0) ||
          decide (e.info.attr &&& ARC_ATTR_UNCONDITIONAL ≠ 0 ∧
                  e.info.attr &&& ARC_ATTR_CALL_NON_RETURN = 0)))).map (branchOf g)) := by
  unfold reportBlockBranches
  rw [hb]
  dsimp only
  cases hll : lastLinePair block with
  | none => rw [hll] at hl; simp at hl
  | some p =>
    dsimp only
    rw [hfi]
    dsimp only
    rw [hex]
    dsimp only
    congr 1
    refine filterMap_eq_filter_map _ _ _ _ (fun e _ => ?_)
    by_cases h1 : e.dst = exitBlk ∧ e.info.count = some 0
    · simp [h1]
    · by_cases h2 : e.info.attr &&& ARC_ATTR_UNCONDITIONAL ≠ 0 ∧
          e.info.attr &&& ARC_ATTR_CALL_NON_RETURN = 0
      · simp [h1, h2, reportArc]
      · simp [h1, h2, reportArc]

/-- Witness for the amended C5: on `graphC5` the branch list is exactly
the filtered-and-mapped outgoing edge list (here empty). -/
theorem c5_report_branches_witness :
    reportBlockBranches graphC5 0 = some [] := by
  rw [c5_report_branches graphC5 0
      ⟨0, 0, some 1, 0, [.fileName 1, .lineNumber 5]⟩ ⟨[0], [0, 1], none⟩ 1
      rfl (by decide) rfl (by decide)]
  decide

/-! ### Analysis (`Graph::analyze`) — attribute marking passes -/

/-- ORs a mask into one edge's arc attributes (`graph[ei].attr |= mask`). -/
def edgeAttrOr (g : Graph) (ei mask : Nat) : Graph :=
  { g with edges := listModify g.edges ei (fun e =>
      { e with info := { e.info with attr := e.info.attr ||| mask } }) }

/-- ORs a mask into one block's attributes (`graph[ni].attr |= mask`). -/
def nodeAttrOr (g : Graph) (ni mask : Nat) : Graph :=
  { g with nodes := listModify g.nodes ni (fun b =>
      { b with attr := b.attr ||| mask }) }

/-- Sets one edge's count (`graph[ei].count = Some c`). -/
def edgeCountSet (g : Graph) (ei c : Nat) : Graph :=
  { g with edges := listModify g.edges ei (fun e =>
      { e with info := { e.info with count := some c } }) }

/-- Sets one block's count (`graph[ni].count = Some c`). -/
def nodeCountSet (g : Graph) (ni c : Nat) : Graph :=
  { g with nodes := listModify g.nodes ni (fun b => { b with count := some c }) }

/-- Removes a mask from a 16-bit attribute bitfield (`attr.remove(mask)`). -/
def attrRemove (a mask : Nat) : Nat := a &&& (0xFFFF ^^^ mask)

/-- One source block of `Graph::mark_catch_blocks`: snapshot the outgoing
edges as (attr, edge index, target); fake edges mark the target
(entry-block source) or the source (otherwise) and the edge; a non-entry
thrower additionally marks its non-fake non-fallthrough outgoing edges
with `THROW` (filters use the snapshot attributes, as in the source). -/
def markCatchSrc (g : Graph) (src : Nat) : Graph :=
  let edgeList := ((enumFrom 0 g.edges).filter (fun p => p.2.src == src)).map
    (fun p => (p.2.info.attr, p.1, p.2.dst))
  let isEntry := ((lget g.nodes src).getD default).block == 0
  let fakes := edgeList.filter (fun t => t.1 &&& ARC_ATTR_FAKE != 0)
  let g1 := fakes.foldl (fun acc t =>
    if isEntry then
      edgeAttrOr (nodeAttrOr acc t.2.2 BLOCK_ATTR_NONLOCAL_RETURN) t.2.1
        ARC_ATTR_NONLOCAL_RETURN
    else
      edgeAttrOr (nodeAttrOr acc src BLOCK_ATTR_CALL_SITE) t.2.1
        ARC_ATTR_CALL_NON_RETURN) g
  if isEntry || fakes.isEmpty then g1
  else
    (edgeList.filter (fun t =>
        t.1 &&& (ARC_ATTR_FAKE ||| ARC_ATTR_FALLTHROUGH) == 0)).foldl
      (fun acc t => edgeAttrOr acc t.2.1 ARC_ATTR_THROW) g1

def markCatchBlocks (g : Graph) : Graph :=
  (List.range g.nodes.length).foldl markCatchSrc g

/-- The non-`FAKE` outgoing edges of a block, with their edge indices. -/
def nonFakeOutgoing (g : Graph) (src : Nat) : List (Nat × GraphEdge) :=
  (enumFrom 0 g.edges).filter (fun p =>
    p.2.src == src && p.2.info.attr &&& ARC_ATTR_FAKE == 0)

/-- The edges collected by `Graph::mark_unconditional_arcs`: for every
source block with exactly one non-fake outgoing edge, the tuple
(source, target, edge index, snapshot attributes). -/
def uncondList (g : Graph) : List (Nat × Nat × Nat × Nat) :=
  (List.range g.nodes.length).filterMap (fun src =>
    match nonFakeOutgoing g src with
    | [(ei, e)] => some (e.src, e.dst, ei, e.info.attr)
    | _ => none)

/-- The marking step of `Graph::mark_unconditional_arcs`: the edge gains
`UNCONDITIONAL`; a fallthrough out of a `CALL_SITE` block additionally
marks the destination `CALL_RETURN`. -/
def uncondStep (acc : Graph) (t : Nat × Nat × Nat × Nat) : Graph :=
  let acc1 := edgeAttrOr acc t.2.2.1 ARC_ATTR_UNCONDITIONAL
  if t.2.2.2 &&& ARC_ATTR_FALLTHROUGH ≠ 0 ∧
      ((lget acc1.nodes t.1).getD default).attr &&& BLOCK_ATTR_CALL_SITE ≠ 0 then
    nodeAttrOr acc1 t.2.1 BLOCK_ATTR_CALL_RETURN
  else acc1

/-- `Graph::mark_unconditional_arcs`: collect, then mark. -/
def markUnconditionalArcs (g : Graph) : Graph :=
  (uncondList g).foldl uncondStep g

/-- Successors along edges with neither `FAKE` nor `THROW`
(the `is_non_exc_edge` filter of `Graph::mark_exceptional_blocks`). -/
def nonExcSuccessors (g : Graph) (n : Nat) : List Nat :=
  (g.edges.filter (fun e =>
    e.src == n && e.info.attr &&& (ARC_ATTR_FAKE ||| ARC_ATTR_THROW) == 0)).map
    (fun e => e.dst)

/-- Fuel-bounded depth-first traversal collecting the visited set. -/
def reachLoop (g : Graph) : Nat → List Nat → List Nat → List Nat
  | 0, _, visited => visited
  | _ + 1, [], visited => visited
  | fuel + 1, n :: stack, visited =>
    if visited.contains n then reachLoop g fuel stack visited
    else reachLoop g fuel (nonExcSuccessors g n ++ stack) (visited ++ [n])

def reachableFrom (g : Graph) (entries : List Nat) : List Nat :=
  reachLoop g (entries.length + (g.nodes.length + 1) * (g.edges.length + 1))
    entries []

/-- `Graph::mark_exceptional_blocks`: mark every non-entry block
`EXCEPTIONAL`, then clear it on every block reachable from an entry block
along edges with neither `FAKE` nor `THROW`. -/
def markExceptionalBlocks (g : Graph) : Graph :=
  let g1 : Graph := { g with nodes := g.nodes.map (fun b =>
    if b.block == 0 then b else { b with attr := b.attr ||| BLOCK_ATTR_EXCEPTIONAL }) }
  let entries := ((enumFrom 0 g1.nodes).filter (fun p => p.2.block == 0)).map
    (fun p => p.1)
  let reach := reachableFrom g1 entries
  { g1 with nodes := (enumFrom 0 g1.nodes).map (fun p =>
      if reach.contains p.1 then
        { p.2 with attr := attrRemove p.2.attr BLOCK_ATTR_EXCEPTIONAL }
      else p.2) }

/-! ### Analysis — flow solver (`Graph::propagate_counts`) -/

/-- Wrapping `u64` addition. -/
def u64add (a b : Nat) : Nat := (a + b) % 2 ^ 64

/-- Wrapping `u64` subtraction (release-build semantics). -/
def u64sub (a b : Nat) : Nat := (a + (2 ^ 64 - b % 2 ^ 64)) % 2 ^ 64

/-- Per-block solver aggregates (`graph::BlockStatus`). -/
structure BlockStatus where
  outgoing_total_count : Nat := 0
  outgoing_invalid_arcs : Nat := 0
  incoming_total_count : Nat := 0
  incoming_invalid_arcs : Nat := 0
deriving DecidableEq, Inhabited

inductive Direction
  | outgoing
  | incoming
deriving DecidableEq

inductive BlockColor
  | white
  | red
  | green
deriving DecidableEq

def statusIa (s : BlockStatus) : Direction → Nat
  | .outgoing => s.outgoing_invalid_arcs
  | .incoming => s.incoming_invalid_arcs

def statusTc (s : BlockStatus) : Direction → Nat
  | .outgoing => s.outgoing_total_count
  | .incoming => s.incoming_total_count

/-- `Graph::create_block_status`: accumulate known counts and invalid-arc
counters per endpoint, then mark every function's entry block as having
unresolvably many incoming and its exit block unresolvably many outgoing
invalid arcs.  `none` models the panic on a missing entry/exit block. -/
def createBlockStatus (g : Graph) : Option (List BlockStatus) :=
  let init := g.edges.foldl (fun bs e =>
    match e.info.count with
    | some c =>
      listModify (listModify bs e.src (fun s =>
        { s with outgoing_total_count := u64add s.outgoing_total_count c })) e.dst
        (fun s => { s with incoming_total_count := u64add s.incoming_total_count c })
    | none =>
      listModify (listModify bs e.src (fun s =>
        { s with outgoing_invalid_arcs := s.outgoing_invalid_arcs + 1 })) e.dst
        (fun s => { s with incoming_invalid_arcs := s.incoming_invalid_arcs + 1 }))
    (List.replicate g.nodes.length {})
  g.functions.foldlM (fun bs f =>
    match f.entryBlock, f.exitBlock g.version with
    | some entry, some exitB =>
      some (listModify (listModify bs entry (fun s =>
        { s with incoming_invalid_arcs := USIZE_MAX })) exitB (fun s =>
        { s with outgoing_invalid_arcs := USIZE_MAX }))
    | _, _ => none) init

/-- `Graph::process_red_block`: if one side has no invalid arcs its total
becomes the block count (green), else the block stays white. -/
def processRedBlock (bs : List BlockStatus) (ni : Nat) : Option Nat :=
  let status := (lget bs ni).getD default
  if status.outgoing_invalid_arcs = 0 then some status.outgoing_total_count
  else if status.incoming_invalid_arcs = 0 then some status.incoming_total_count
  else none

/-- The red sweep: process every red block in ascending index order,
setting counts and collecting the blocks turned green. -/
def processReds (g : Graph) (bs : List BlockStatus) (red : List Nat) :
    Graph × List Nat :=
  red.foldl (fun acc ni =>
    match processRedBlock bs ni with
    | some total => (nodeCountSet acc.1 ni total, acc.2 ++ [ni])
    | none => acc) (g, [])

/-- Edges incident to `ni` in the given direction, with edge indices. -/
def edgesDirected (g : Graph) (ni : Nat) (dir : Direction) : List (Nat × GraphEdge) :=
  (enumFrom 0 g.edges).filter (fun p =>
    (match dir with | .outgoing => p.2.src | .incoming => p.2.dst) == ni)

/-- `Graph::process_green_block`: when exactly one invalid arc remains in
the direction, resolve it to (block count − known side total), updating
the edge count and the block's aggregates; returns the other endpoint and
the resolved count.  `none` models the two `expect` panics. -/
def processGreenBlock (g : Graph) (bs : List BlockStatus) (src : Nat)
    (dir : Direction) : Option (Graph × List BlockStatus × Option (Nat × Nat)) :=
  let status := (lget bs src).getD default
  if statusIa status dir ≠ 1 then some (g, bs, none)
  else
    match (edgesDirected g src dir).filter (fun p => p.2.info.count == none) with
    | [] => none
    | (ei, e) :: _ =>
      let d := match dir with | .outgoing => e.dst | .incoming => e.src
      match ((lget g.nodes src).getD default).count with
      | none => none
      | some blockCount =>
        let arcCount := u64sub blockCount (statusTc status dir)
        let bs' := listModify bs src (fun s =>
          match dir with
          | .outgoing => { s with
              outgoing_total_count := blockCount,
              outgoing_invalid_arcs := s.outgoing_invalid_arcs - 1 }
          | .incoming => { s with
              incoming_total_count := blockCount,
              incoming_invalid_arcs := s.incoming_invalid_arcs - 1 })
        some (edgeCountSet g ei arcCount, bs', some (d, arcCount))

/-- `Graph::process_green_block_dest`: update the other endpoint's
aggregates in the opposite direction and classify it. -/
def processGreenBlockDest (g : Graph) (bs : List BlockStatus) (dest arcCount : Nat)
    (dir : Direction) : List BlockStatus × BlockColor :=
  let bs' := listModify bs dest (fun s =>
    match dir with
    | .outgoing => { s with
        incoming_total_count := u64add s.incoming_total_count arcCount,
        incoming_invalid_arcs := s.incoming_invalid_arcs - 1 }
    | .incoming => { s with
        outgoing_total_count := u64add s.outgoing_total_count arcCount,
        outgoing_invalid_arcs := s.outgoing_invalid_arcs - 1 })
  let ia := match dir with
    | .outgoing => ((lget bs' dest).getD default).incoming_invalid_arcs
    | .incoming => ((lget bs' dest).getD default).outgoing_invalid_arcs
  match ((lget g.nodes dest).getD default).count, ia with
  | some _, 1 => (bs', .green)
  | none, 0 => (bs', .red)
  | _, _ => (bs', .white)

/-! Bitsets over node indices (`FixedBitSet`). -/

def bitsetOnes (s : List Bool) : List Nat :=
  ((enumFrom 0 s).filter (fun p => p.2)).map (fun p => p.1)

def bitsetInsert (s : List Bool) (i : Nat) : List Bool :=
  listModify s i (fun _ => true)

def bitsetIsEmpty (s : List Bool) : Bool := s.all (fun b => !b)

/-- One green block in one direction: resolve, then color the other
endpoint into the red or next-green set. -/
def greenStep (acc : Graph × List BlockStatus × List Bool × List Bool)
    (src : Nat) (dir : Direction) :
    Option (Graph × List BlockStatus × List Bool × List Bool) :=
  match processGreenBlock acc.1 acc.2.1 src dir with
  | none => none
  | some (g', bs', none) => some (g', bs', acc.2.2.1, acc.2.2.2)
  | some (g', bs', some (dest, ac)) =>
    match processGreenBlockDest g' bs' dest ac dir with
    | (bs'', .white) => some (g', bs'', acc.2.2.1, acc.2.2.2)
    | (bs'', .red) => some (g', bs'', bitsetInsert acc.2.2.1 dest, acc.2.2.2)
    | (bs'', .green) => some (g', bs'', acc.2.2.1, bitsetInsert acc.2.2.2 dest)

/-- The green sweep: each green block is processed for the outgoing then
the incoming direction, accumulating the next red and green sets. -/
def processGreens (g : Graph) (bs : List BlockStatus) (oldGreen : List Nat)
    (n : Nat) : Option (Graph × List BlockStatus × List Bool × List Bool) :=
  oldGreen.foldlM (fun acc src => do
    let acc1 ← greenStep acc src .outgoing
    greenStep acc1 src .incoming)
    (g, bs, List.replicate n false, List.replicate n false)

/-- The outer loop of `Graph::propagate_counts`: sweep red then green
blocks until a full sweep finds both sets empty.  The fuel exceeds the
possible number of set insertions, so it never runs out on states the
source can reach. -/
def propagateLoop : Nat → Graph → List BlockStatus → List Bool → List Bool →
    Option Graph
  | 0, _, _, _, _ => none
  | fuel + 1, g, bs, red, green =>
    if bitsetIsEmpty red && bitsetIsEmpty green then some g
    else
      let p := processReds g bs (bitsetOnes red)
      let oldGreen := p.2.foldl bitsetInsert green
      match processGreens p.1 bs (bitsetOnes oldGreen) g.nodes.length with
      | none => none
      | some (g2, bs2, red2, green2) => propagateLoop fuel g2 bs2 red2 green2

/-- `Graph::propagate_counts`: all blocks start red, the green sets start
empty. -/
def propagateCounts (g : Graph) : Option Graph :=
  match createBlockStatus g with
  | none => none
  | some bs =>
    propagateLoop (2 * (g.nodes.length + g.edges.length) + 3) g bs
      (List.replicate g.nodes.length true) (List.replicate g.nodes.length false)

/-- `Graph::verify_counts`: every block and every edge has a concrete
count. -/
def verifyCounts (g : Graph) : Bool :=
  g.nodes.all (fun b => b.count.isSome) && g.edges.all (fun e => e.info.count.isSome)

/-- `Graph::analyze`: catch marking, unconditional marking, exceptional
marking, count propagation (the debug-only `verify_counts` assertion is
modelled separately by `verifyCounts`), exceptional marking again. -/
def analyze (g : Graph) : Option Graph :=
  match propagateCounts (markExceptionalBlocks (markUnconditionalArcs
      (markCatchBlocks g))) with
  | none => none
  | some g4 => some (markExceptionalBlocks g4)

/-- C1 (code bug). Merging `gcovTrivial` — a well-formed GCNO whose only
arc is `ON_TREE` — succeeds, yet after `analyze()` returns, the solver
has left every block and the arc without a concrete count, so the graph
violates `verify_counts`' own assertion (which fires in debug builds). -/
theorem c1_analyze_leaves_absent_counts :
    (merge emptyGraph gcovTrivial).isOk = true ∧
    ((stateAfter (merge emptyGraph gcovTrivial)).bind analyze).map verifyCounts =
      some false := by
  decide

/-! ### C4 machinery: what the analysis passes do to edge attributes -/

theorem lget_lt_some {α : Type} (l : List α) (i : Nat) (h : i < l.length) :
    ∃ a, lget l i = some a := by
  induction l generalizing i with
  | nil => exact absurd h (Nat.not_lt_zero i)
  | cons x xs ih =>
    cases i with
    | zero => exact ⟨x, rfl⟩
    | succ m => exact ih m (Nat.lt_of_succ_lt_succ h)

theorem length_enumFrom {α : Type} (s : Nat) (l : List α) :
    (enumFrom s l).length = l.length := by
  induction l generalizing s with
  | nil => rfl
  | cons x xs ih => simpa [enumFrom] using ih (s + 1)

theorem mem_enumFrom {α : Type} (l : List α) (k j : Nat) (x : α)
    (h : lget l j = some x) : (k + j, x) ∈ enumFrom k l := by
  induction l generalizing k j with
  | nil => simp [lget_nil] at h
  | cons y ys ih =>
    cases j with
    | zero =>
      have : y = x := by simpa [lget] using h
      subst this
      simp [enumFrom]
    | succ m =>
      have := ih (k + 1) m h
      have harith : k + (m + 1) = (k + 1) + m := by omega
      rw [harith]
      exact List.mem_cons_of_mem _ this

theorem enumFrom_mem {α : Type} (l : List α) (k i : Nat) (x : α)
    (h : (i, x) ∈ enumFrom k l) : k ≤ i ∧ lget l (i - k) = some x := by
  induction l generalizing k with
  | nil => simp [enumFrom] at h
  | cons y ys ih =>
    rw [enumFrom, List.mem_cons] at h
    rcases h with h | h
    · have h' : i = k ∧ x = y := by simpa using h
      obtain ⟨h1, h2⟩ := h'
      subst h1
      subst h2
      exact ⟨Nat.le_refl _, by simp [lget]⟩
    · obtain ⟨hle, hg⟩ := ih (k + 1) h
      refine ⟨Nat.le_trans (Nat.le_succ k) hle, ?_⟩
      have harith : i - k = (i - (k + 1)) + 1 := by omega
      rw [harith]
      exact hg

theorem land_two_pow_eq_zero_iff (a k : Nat) :
    a &&& 2 ^ k = 0 ↔ a.testBit k = false := by
  rw [Nat.and_two_pow]
  constructor
  · intro h
    cases hb : a.testBit k with
    | false => rfl
    | true =>
      rw [hb] at h
      simp at h
  · intro h
    rw [h]
    simp

theorem or_land_of_disjoint (a m k : Nat) (h : m &&& k = 0) :
    (a ||| m) &&& k = a &&& k := by
  apply Nat.eq_of_testBit_eq
  intro i
  have hm : (m.testBit i && k.testBit i) = false := by
    have := congrArg (Nat.testBit · i) h
    simpa [Nat.testBit_land, Nat.zero_testBit] using this
  simp only [Nat.testBit_land, Nat.testBit_lor]
  cases ha : a.testBit i <;> cases hmb : m.testBit i <;>
    cases hk : k.testBit i <;> simp_all

theorem submask_or (m1 a1 m2 a2 : Nat) (h1 : m1 &&& a1 = m1) (h2 : m2 &&& a2 = m2) :
    (m1 ||| m2) &&& (a1 ||| a2) = m1 ||| m2 := by
  apply Nat.eq_of_testBit_eq
  intro i
  have e1 := congrArg (Nat.testBit · i) h1
  have e2 := congrArg (Nat.testBit · i) h2
  simp only [Nat.testBit_land, Nat.testBit_lor] at e1 e2 ⊢
  cases hm1 : m1.testBit i <;> cases hm2 : m2.testBit i <;>
    cases ha1 : a1.testBit i <;> cases ha2 : a2.testBit i <;> simp_all

theorem zero_submask (a : Nat) : 0 &&& a = 0 := by
  apply Nat.eq_of_testBit_eq
  intro i
  simp [Nat.testBit_land, Nat.zero_testBit]

/-- Evolution relation for analysis passes: node and edge counts are
preserved structurally, every edge keeps its endpoints, and its
attributes only gain bits from `allowed` (counts may change freely). -/
def EdgeEvolve (allowed : Nat) (g h : Graph) : Prop :=
  h.nodes.length = g.nodes.length ∧
  h.edges.length = g.edges.length ∧
  ∀ i e, lget g.edges i = some e → ∃ e' m, lget h.edges i = some e' ∧
    m &&& allowed = m ∧ e'.src = e.src ∧ e'.dst = e.dst ∧
    e'.info.attr = e.info.attr ||| m

theorem edgeEvolve_refl (allowed : Nat) (g : Graph) : EdgeEvolve allowed g g :=
  ⟨rfl, rfl, fun _ e he =>
    ⟨e, 0, he, zero_submask _, rfl, rfl, (Nat.or_zero _).symm⟩⟩

theorem edgeEvolve_trans (a1 a2 : Nat) (g h k : Graph)
    (h1 : EdgeEvolve a1 g h) (h2 : EdgeEvolve a2 h k) :
    EdgeEvolve (a1 ||| a2) g k := by
  obtain ⟨hn1, he1, hp1⟩ := h1
  obtain ⟨hn2, he2, hp2⟩ := h2
  refine ⟨hn2.trans hn1, he2.trans he1, fun i e he => ?_⟩
  obtain ⟨e1, m1, hg1, hm1, hs1, hd1, ha1⟩ := hp1 i e he
  obtain ⟨e2, m2, hg2, hm2, hs2, hd2, ha2⟩ := hp2 i e1 hg1
  refine ⟨e2, m1 ||| m2, hg2, submask_or _ _ _ _ hm1 hm2,
    hs2.trans hs1, hd2.trans hd1, ?_⟩
  rw [ha2, ha1, Nat.lor_assoc]

theorem edgeEvolve_trans_same (a : Nat) (g h k : Graph)
    (h1 : EdgeEvolve a g h) (h2 : EdgeEvolve a h k) : EdgeEvolve a g k := by
  have := edgeEvolve_trans a a g h k h1 h2
  rwa [Nat.or_self] at this

theorem edgeAttrOr_evolve (allowed : Nat) (g : Graph) (ei mask : Nat)
    (hm : mask &&& allowed = mask) : EdgeEvolve allowed g (edgeAttrOr g ei mask) := by
  refine ⟨rfl, length_listModify _ _ _, fun i e he => ?_⟩
  by_cases hi : ei = i
  · subst hi
    refine ⟨{ e with info := { e.info with attr := e.info.attr ||| mask } },
      mask, ?_, hm, rfl, rfl, rfl⟩
    show lget (listModify g.edges ei _) ei = _
    rw [lget_listModify_eq, he]
    rfl
  · refine ⟨e, 0, ?_, zero_submask _, rfl, rfl, (Nat.or_zero _).symm⟩
    show lget (listModify g.edges ei _) i = some e
    rw [lget_listModify_ne _ _ _ _ hi]
    exact he

theorem nodeAttrOr_evolve (allowed : Nat) (g : Graph) (ni mask : Nat) :
    EdgeEvolve allowed g (nodeAttrOr g ni mask) :=
  ⟨length_listModify _ _ _, rfl, fun _ e he =>
    ⟨e, 0, he, zero_submask _, rfl, rfl, (Nat.or_zero _).symm⟩⟩

theorem nodeCountSet_evolve (allowed : Nat) (g : Graph) (ni c : Nat) :
    EdgeEvolve allowed g (nodeCountSet g ni c) :=
  ⟨length_listModify _ _ _, rfl, fun _ e he =>
    ⟨e, 0, he, zero_submask _, rfl, rfl, (Nat.or_zero _).symm⟩⟩

theorem edgeCountSet_evolve (allowed : Nat) (g : Graph) (ei c : Nat) :
    EdgeEvolve allowed g (edgeCountSet g ei c) := by
  refine ⟨rfl, length_listModify _ _ _, fun i e he => ?_⟩
  by_cases hi : ei = i
  · subst hi
    refine ⟨{ e with info := { e.info with count := some c } },
      0, ?_, zero_submask _, rfl, rfl, (Nat.or_zero _).symm⟩
    show lget (listModify g.edges ei _) ei = _
    rw [lget_listModify_eq, he]
    rfl
  · refine ⟨e, 0, ?_, zero_submask _, rfl, rfl, (Nat.or_zero _).symm⟩
    show lget (listModify g.edges ei _) i = some e
    rw [lget_listModify_ne _ _ _ _ hi]
    exact he

theorem foldl_evolve {τ : Type} (allowed : Nat) (step : Graph → τ → Graph)
    (hstep : ∀ g t, EdgeEvolve allowed g (step g t)) (l : List τ) (g : Graph) :
    EdgeEvolve allowed g (l.foldl step g) := by
  induction l generalizing g with
  | nil => exact edgeEvolve_refl _ _
  | cons t rest ih =>
    rw [List.foldl_cons]
    exact edgeEvolve_trans_same _ _ _ _ (hstep g t) (ih (step g t))

theorem markCatchSrc_evolve (g : Graph) (s : Nat) :
    EdgeEvolve 0x70 g (markCatchSrc g s) := by
  unfold markCatchSrc
  dsimp only
  split
  · exact foldl_evolve 0x70 _ (fun acc t => by
      split
      · exact edgeEvolve_trans_same _ _ _ _ (nodeAttrOr_evolve _ _ _ _)
          (edgeAttrOr_evolve _ _ _ _ (by decide))
      · exact edgeEvolve_trans_same _ _ _ _ (nodeAttrOr_evolve _ _ _ _)
          (edgeAttrOr_evolve _ _ _ _ (by decide))) _ g
  · exact edgeEvolve_trans_same _ _ _ _
      (foldl_evolve 0x70 _ (fun acc t => by
        split
        · exact edgeEvolve_trans_same _ _ _ _ (nodeAttrOr_evolve _ _ _ _)
            (edgeAttrOr_evolve _ _ _ _ (by decide))
        · exact edgeEvolve_trans_same _ _ _ _ (nodeAttrOr_evolve _ _ _ _)
            (edgeAttrOr_evolve _ _ _ _ (by decide))) _ g)
      (foldl_evolve 0x70 _ (fun acc t =>
        edgeAttrOr_evolve _ _ _ _ (by decide)) _ _)

theorem markCatchBlocks_evolve (g : Graph) :
    EdgeEvolve 0x70 g (markCatchBlocks g) :=
  foldl_evolve 0x70 markCatchSrc markCatchSrc_evolve _ g

theorem markExceptionalBlocks_edges (g : Graph) :
    (markExceptionalBlocks g).edges = g.edges := rfl

theorem markExceptionalBlocks_nodes_length (g : Graph) :
    (markExceptionalBlocks g).nodes.length = g.nodes.length := by
  show ((enumFrom 0 _).map _).length = _
  rw [List.length_map, length_enumFrom, List.length_map]

theorem markExceptionalBlocks_evolve (g : Graph) :
    EdgeEvolve 0 g (markExceptionalBlocks g) := by
  refine ⟨markExceptionalBlocks_nodes_length g, ?_, fun i e he => ?_⟩
  · rw [markExceptionalBlocks_edges]
  · refine ⟨e, 0, ?_, zero_submask _, rfl, rfl, (Nat.or_zero _).symm⟩
    rw [markExceptionalBlocks_edges]
    exact he

theorem processReds_evolve (g : Graph) (bs : List BlockStatus) (red : List Nat) :
    EdgeEvolve 0 g (processReds g bs red).1 := by
  suffices H : ∀ (red : List Nat) (acc : Graph × List Nat),
      EdgeEvolve 0 acc.1 (red.foldl (fun acc ni =>
        match processRedBlock bs ni with
        | some total => (nodeCountSet acc.1 ni total, acc.2 ++ [ni])
        | none => acc) acc).1 by
    exact H red (g, [])
  intro red
  induction red with
  | nil => exact fun acc => edgeEvolve_refl _ _
  | cons ni rest ih =>
    intro acc
    rw [List.foldl_cons]
    cases hpr : processRedBlock bs ni with
    | some total =>
      refine edgeEvolve_trans_same _ _ _ _ (nodeCountSet_evolve 0 acc.1 ni total) ?_
      exact ih (nodeCountSet acc.1 ni total, acc.2 ++ [ni])
    | none => exact ih acc

theorem processGreenBlock_evolve (g : Graph) (bs : List BlockStatus)
    (src : Nat) (dir : Direction) (out : Graph × List BlockStatus × Option (Nat × Nat))
    (h : processGreenBlock g bs src dir = some out) : EdgeEvolve 0 g out.1 := by
  unfold processGreenBlock at h
  dsimp only at h
  split at h
  · cases h
    exact edgeEvolve_refl _ _
  · split at h
    · exact absurd h (by simp)
    · split at h
      · exact absurd h (by simp)
      · cases h
        exact edgeCountSet_evolve _ _ _ _

theorem greenStep_evolve (acc acc' : Graph × List BlockStatus × List Bool × List Bool)
    (src : Nat) (dir : Direction) (h : greenStep acc src dir = some acc') :
    EdgeEvolve 0 acc.1 acc'.1 := by
  unfold greenStep at h
  cases hp : processGreenBlock acc.1 acc.2.1 src dir with
  | none => rw [hp] at h; exact absurd h (by simp)
  | some out =>
    obtain ⟨g', bs', destInfo⟩ := out
    have hev := processGreenBlock_evolve _ _ _ _ _ hp
    rw [hp] at h
    cases destInfo with
    | none =>
      cases h
      exact hev
    | some p =>
      obtain ⟨dest, ac⟩ := p
      dsimp only at h
      cases hd : processGreenBlockDest g' bs' dest ac dir with
      | mk bs'' color =>
        rw [hd] at h
        cases color <;> dsimp only at h <;> cases h <;> exact hev

theorem processGreens_evolve (g : Graph) (bs : List BlockStatus)
    (oldGreen : List Nat) (n : Nat)
    (out : Graph × List BlockStatus × List Bool × List Bool)
    (h : processGreens g bs oldGreen n = some out) : EdgeEvolve 0 g out.1 := by
  suffices H : ∀ (l : List Nat) (acc : Graph × List BlockStatus × List Bool × List Bool),
      l.foldlM (fun acc src => do
        let acc1 ← greenStep acc src .outgoing
        greenStep acc1 src .incoming) acc = some out →
      EdgeEvolve 0 acc.1 out.1 by
    exact H oldGreen _ h
  intro l
  induction l with
  | nil =>
    intro acc hacc
    simp [List.foldlM] at hacc
    rw [hacc]
    exact edgeEvolve_refl _ _
  | cons src rest ih =>
    intro acc hacc
    rw [List.foldlM_cons] at hacc
    cases h1 : greenStep acc src .outgoing with
    | none => rw [h1] at hacc; exact absurd hacc (by simp)
    | some acc1 =>
      rw [h1] at hacc
      simp only [Option.bind_eq_bind, Option.some_bind] at hacc
      cases h2 : greenStep acc1 src .incoming with
      | none => rw [h2] at hacc; exact absurd hacc (by simp)
      | some acc2 =>
        rw [h2] at hacc
        simp only [Option.some_bind] at hacc
        exact edgeEvolve_trans_same _ _ _ _
          (edgeEvolve_trans_same _ _ _ _ (greenStep_evolve _ _ _ _ h1)
            (greenStep_evolve _ _ _ _ h2)) (ih acc2 hacc)

theorem propagateLoop_evolve (fuel : Nat) (g : Graph) (bs : List BlockStatus)
    (red green : List Bool) (g' : Graph)
    (h : propagateLoop fuel g bs red green = some g') : EdgeEvolve 0 g g' := by
  induction fuel generalizing g bs red green with
  | zero => exact absurd h (by simp [propagateLoop])
  | succ fuel ih =>
    unfold propagateLoop at h
    split at h
    · cases h
      exact edgeEvolve_refl _ _
    · dsimp only at h
      cases hg : processGreens (processReds g bs (bitsetOnes red)).1 bs
          (bitsetOnes ((processReds g bs (bitsetOnes red)).2.foldl bitsetInsert green))
          g.nodes.length with
      | none => rw [hg] at h; exact absurd h (by simp)
      | some out =>
        obtain ⟨g2, bs2, red2, green2⟩ := out
        rw [hg] at h
        dsimp only at h
        exact edgeEvolve_trans_same _ _ _ _
          (edgeEvolve_trans_same _ _ _ _
            (processReds_evolve g bs (bitsetOnes red))
            (processGreens_evolve _ _ _ _ _ hg))
          (ih _ _ _ _ h)

theorem propagateCounts_evolve (g g' : Graph)
    (h : propagateCounts g = some g') : EdgeEvolve 0 g g' := by
  unfold propagateCounts at h
  cases hbs : createBlockStatus g with
  | none => rw [hbs] at h; exact absurd h (by simp)
  | some bs =>
    rw [hbs] at h
    exact propagateLoop_evolve _ _ _ _ _ _ h

/-! ### C4: effect of `mark_unconditional_arcs` on edge attributes -/

theorem foldl_preserves {σ τ β : Type} (proj : σ → β) (step : σ → τ → σ)
    (h : ∀ s t, proj (step s t) = proj s) (l : List τ) (s : σ) :
    proj (l.foldl step s) = proj s := by
  induction l generalizing s with
  | nil => rfl
  | cons t rest ih => rw [List.foldl_cons, ih, h]

/-- The OR of `UNCONDITIONAL` into an edge's attributes. -/
def orUncond (e : GraphEdge) : GraphEdge :=
  { e with info := { e.info with attr := e.info.attr ||| ARC_ATTR_UNCONDITIONAL } }

theorem orUncond_idem (e : GraphEdge) : orUncond (orUncond e) = orUncond e := by
  simp [orUncond, Nat.lor_assoc]

theorem uncondStep_edges (acc : Graph) (t : Nat × Nat × Nat × Nat) :
    (uncondStep acc t).edges =
      (edgeAttrOr acc t.2.2.1 ARC_ATTR_UNCONDITIONAL).edges := by
  unfold uncondStep
  dsimp only
  split <;> rfl

theorem uncondStep_edges_length (acc : Graph) (t : Nat × Nat × Nat × Nat) :
    (uncondStep acc t).edges.length = acc.edges.length := by
  rw [uncondStep_edges]
  exact length_listModify _ _ _

theorem uncondStep_nodes_length (acc : Graph) (t : Nat × Nat × Nat × Nat) :
    (uncondStep acc t).nodes.length = acc.nodes.length := by
  unfold uncondStep
  dsimp only
  split
  · exact length_listModify _ _ _
  · rfl

theorem markUncond_edges_length (g : Graph) :
    (markUnconditionalArcs g).edges.length = g.edges.length :=
  foldl_preserves (fun g => g.edges.length) uncondStep uncondStep_edges_length
    (uncondList g) g

theorem markUncond_nodes_length (g : Graph) :
    (markUnconditionalArcs g).nodes.length = g.nodes.length :=
  foldl_preserves (fun g => g.nodes.length) uncondStep uncondStep_nodes_length
    (uncondList g) g

theorem uncondFold_edges (l : List (Nat × Nat × Nat × Nat)) (g : Graph) (i : Nat) :
    lget (l.foldl uncondStep g).edges i = (lget g.edges i).map (fun e =>
      if l.any (fun t => t.2.2.1 == i) then orUncond e else e) := by
  induction l generalizing g with
  | nil => cases h : lget g.edges i <;> simp [h]
  | cons t rest ih =>
    rw [List.foldl_cons, ih]
    by_cases hei : t.2.2.1 = i
    · have h1 : lget (uncondStep g t).edges i = (lget g.edges i).map orUncond := by
        rw [uncondStep_edges, hei]
        show lget (listModify g.edges i _) i = _
        rw [lget_listModify_eq]
        rfl
      rw [h1]
      cases hge : lget g.edges i with
      | none => simp
      | some e =>
        simp only [Option.map_some']
        have hany : (t :: rest).any (fun t => t.2.2.1 == i) = true := by
          simp [List.any_cons, hei]
        rw [hany]
        by_cases hr : rest.any (fun t => t.2.2.1 == i)
        · rw [hr]
          simp [orUncond_idem]
        · have hr' : rest.any (fun t => t.2.2.1 == i) = false :=
            Bool.eq_false_iff.mpr hr
          rw [hr']
          simp
    · have h1 : lget (uncondStep g t).edges i = lget g.edges i := by
        rw [uncondStep_edges]
        show lget (listModify g.edges t.2.2.1 _) i = _
        exact lget_listModify_ne _ _ _ _ hei
      rw [h1]
      have hany : (t :: rest).any (fun t => t.2.2.1 == i) =
          rest.any (fun t => t.2.2.1 == i) := by
        simp [List.any_cons, hei]
      rw [hany]

/-- The non-fake outgoing edge indices of a block. -/
def nonFakeOutIdx (g : Graph) (s : Nat) : List Nat :=
  (nonFakeOutgoing g s).map (fun p => p.1)

theorem uncondList_mem_any_iff (g : Graph) (i : Nat) (e : GraphEdge)
    (he : lget g.edges i = some e) (hsrc : e.src < g.nodes.length) :
    ((uncondList g).any (fun t => t.2.2.1 == i) = true) ↔
      nonFakeOutIdx g e.src = [i] := by
  constructor
  · intro hany
    rw [List.any_eq_true] at hany
    obtain ⟨t, htmem, hti⟩ := hany
    have hti' : t.2.2.1 = i := by simpa using hti
    rw [uncondList, List.mem_filterMap] at htmem
    obtain ⟨s, _, hmatch⟩ := htmem
    cases hnfo : nonFakeOutgoing g s with
    | nil => rw [hnfo] at hmatch; exact absurd hmatch (by simp)
    | cons p rest =>
      cases rest with
      | cons q qs => rw [hnfo] at hmatch; exact absurd hmatch (by simp)
      | nil =>
        obtain ⟨ei, x⟩ := p
        rw [hnfo] at hmatch
        have ht := Option.some.inj hmatch
        have hei : ei = i := by rw [← hti', ← ht]
        subst hei
        have hmem : (ei, x) ∈ nonFakeOutgoing g s := by
          rw [hnfo]; exact List.mem_cons_self _ _
        rw [nonFakeOutgoing, List.mem_filter] at hmem
        obtain ⟨henum, hpred⟩ := hmem
        obtain ⟨-, hgx⟩ := enumFrom_mem _ _ _ _ henum
        rw [Nat.sub_zero] at hgx
        have hxe : x = e := by rw [hgx] at he; exact Option.some.inj he
        have hxs : x.src = s := by
          have hp1 := (Bool.and_eq_true .. ▸ hpred).1
          simpa using hp1
        have hes : e.src = s := by rw [← hxe, hxs]
        rw [nonFakeOutIdx, hes, hnfo]
        rfl
  · intro hidx
    cases hnfo : nonFakeOutgoing g e.src with
    | nil => rw [nonFakeOutIdx, hnfo] at hidx; exact absurd hidx (by simp)
    | cons p rest =>
      cases rest with
      | cons q qs => rw [nonFakeOutIdx, hnfo] at hidx; simp at hidx
      | nil =>
        obtain ⟨ei, x⟩ := p
        rw [nonFakeOutIdx, hnfo] at hidx
        have hei : ei = i := by simpa using hidx
        subst hei
        have hmem : (ei, x) ∈ nonFakeOutgoing g e.src := by
          rw [hnfo]; exact List.mem_cons_self _ _
        rw [nonFakeOutgoing, List.mem_filter] at hmem
        obtain ⟨henum, _⟩ := hmem
        obtain ⟨-, hgx⟩ := enumFrom_mem _ _ _ _ henum
        rw [Nat.sub_zero] at hgx
        have hxe : x = e := by rw [hgx] at he; exact Option.some.inj he
        rw [List.any_eq_true]
        refine ⟨(x.src, x.dst, ei, x.info.attr), ?_, by simp⟩
        rw [uncondList, List.mem_filterMap]
        refine ⟨e.src, List.mem_range.mpr hsrc, ?_⟩
        rw [hnfo]

theorem nfoAux_congr (l1 : List GraphEdge) (l2 : List GraphEdge) (start s : Nat)
    (hlen : l2.length = l1.length)
    (hpt : ∀ j e, lget l1 j = some e → ∃ e', lget l2 j = some e' ∧
        e'.src = e.src ∧
        e'.info.attr &&& ARC_ATTR_FAKE = e.info.attr &&& ARC_ATTR_FAKE) :
    ((enumFrom start l2).filter (fun p =>
        p.2.src == s && p.2.info.attr &&& ARC_ATTR_FAKE == 0)).map (fun p => p.1) =
    ((enumFrom start l1).filter (fun p =>
        p.2.src == s && p.2.info.attr &&& ARC_ATTR_FAKE == 0)).map (fun p => p.1) := by
  induction l1 generalizing l2 start with
  | nil =>
    cases l2 with
    | nil => rfl
    | cons y ys => simp at hlen
  | cons x xs ih =>
    cases l2 with
    | nil => simp at hlen
    | cons y ys =>
      obtain ⟨y', hy', hs', ha'⟩ := hpt 0 x rfl
      have hyy : y = y' := by simpa [lget] using hy'
      subst hyy
      have hlen' : ys.length = xs.length := by simpa using hlen
      have hpt' : ∀ j e, lget xs j = some e → ∃ e', lget ys j = some e' ∧
          e'.src = e.src ∧
          e'.info.attr &&& ARC_ATTR_FAKE = e.info.attr &&& ARC_ATTR_FAKE :=
        fun j e hj => hpt (j + 1) e hj
      rw [enumFrom, enumFrom]
      simp only [List.filter_cons]
      have hih := ih ys (start + 1) hlen' hpt'
      cases hpb : ((x.src == s) && (x.info.attr &&& ARC_ATTR_FAKE == 0)) with
      | true =>
        have hyb : ((y.src == s) && (y.info.attr &&& ARC_ATTR_FAKE == 0)) = true := by
          rw [hs', ha']
          exact hpb
        simp [hyb, hpb, hih]
      | false =>
        have hyb : ((y.src == s) && (y.info.attr &&& ARC_ATTR_FAKE == 0)) = false := by
          rw [hs', ha']
          exact hpb
        simp [hyb, hpb, hih]

theorem nonFakeOutIdx_congr (g h : Graph) (s : Nat)
    (hlen : h.edges.length = g.edges.length)
    (hpt : ∀ j e, lget g.edges j = some e → ∃ e', lget h.edges j = some e' ∧
        e'.src = e.src ∧
        e'.info.attr &&& ARC_ATTR_FAKE = e.info.attr &&& ARC_ATTR_FAKE) :
    nonFakeOutIdx h s = nonFakeOutIdx g s :=
  nfoAux_congr g.edges h.edges 0 s hlen hpt

/-- C4. After `analyze()` on a graph whose edge attributes come from the
wire (only the low three bits, as the notes format permits) and whose
edge sources are valid nodes, a non-`FAKE` edge carries `UNCONDITIONAL`
exactly when it is the unique non-`FAKE` outgoing edge of its source
block. -/
theorem c4_unconditional_iff (g g' : Graph)
    (hwire : ∀ e ∈ g.edges, e.info.attr < 8)
    (hsrcs : ∀ e ∈ g.edges, e.src < g.nodes.length)
    (h : analyze g = some g') :
    ∀ i e', lget g'.edges i = some e' →
      e'.info.attr &&& ARC_ATTR_FAKE = 0 →
      (e'.info.attr &&& ARC_ATTR_UNCONDITIONAL ≠ 0 ↔
        nonFakeOutIdx g' e'.src = [i]) := by
  unfold analyze at h
  cases hp : propagateCounts (markExceptionalBlocks (markUnconditionalArcs
      (markCatchBlocks g))) with
  | none => rw [hp] at h; exact absurd h (by simp)
  | some g4 =>
    rw [hp] at h
    dsimp only at h
    have hg' : g' = markExceptionalBlocks g4 := (Option.some.inj h).symm
    subst hg'
    have hA : EdgeEvolve 0x70 g (markCatchBlocks g) := markCatchBlocks_evolve g
    have hC : EdgeEvolve 0 (markUnconditionalArcs (markCatchBlocks g))
        (markExceptionalBlocks g4) :=
      edgeEvolve_trans_same _ _ _ _
        (edgeEvolve_trans_same _ _ _ _
          (markExceptionalBlocks_evolve (markUnconditionalArcs (markCatchBlocks g)))
          (propagateCounts_evolve _ _ hp))
        (markExceptionalBlocks_evolve g4)
    obtain ⟨hAn, hAe, hApt⟩ := hA
    obtain ⟨hCn, hCe, hCpt⟩ := hC
    intro i e' he' hfake
    have hi2 : i < (markUnconditionalArcs (markCatchBlocks g)).edges.length := by
      have hlt := lget_eq_some_lt _ _ _ he'
      omega
    obtain ⟨e2, he2⟩ := lget_lt_some _ _ hi2
    obtain ⟨e'', m0, he'', hm0, hs0, hd0, ha0⟩ := hCpt i e2 he2
    have he''e : e' = e'' := Option.some.inj (he'.symm.trans he'')
    subst he''e
    have hm0z : m0 = 0 := by rw [← hm0, Nat.and_zero]
    have ha0' : e'.info.attr = e2.info.attr := by
      rw [ha0, hm0z, Nat.or_zero]
    have hB : lget (markUnconditionalArcs (markCatchBlocks g)).edges i =
        (lget (markCatchBlocks g).edges i).map (fun e =>
          if (uncondList (markCatchBlocks g)).any (fun t => t.2.2.1 == i) then
            orUncond e
          else e) :=
      uncondFold_edges (uncondList (markCatchBlocks g)) (markCatchBlocks g) i
    have hi1 : i < (markCatchBlocks g).edges.length := by
      have hml := markUncond_edges_length (markCatchBlocks g)
      omega
    obtain ⟨e1, he1⟩ := lget_lt_some _ _ hi1
    rw [he1, he2] at hB
    have he2e1 : e2 = if (uncondList (markCatchBlocks g)).any
        (fun t => t.2.2.1 == i) then orUncond e1 else e1 :=
      Option.some.inj hB
    have hi0 : i < g.edges.length := by omega
    obtain ⟨e0, he0⟩ := lget_lt_some _ _ hi0
    obtain ⟨e1', m1, he1', hm1, hs1, hd1, ha1⟩ := hApt i e0 he0
    have he1'e : e1 = e1' := Option.some.inj (he1.symm.trans he1')
    subst he1'e
    have h7e0 : e0.info.attr.testBit 7 = false :=
      Nat.testBit_eq_false_of_lt (Nat.lt_of_lt_of_le
        (hwire e0 (lget_mem _ _ _ he0)) (by decide))
    have h7m1 : m1.testBit 7 = false := by
      have h112 : (0x70 : Nat).testBit 7 = false := by decide
      calc m1.testBit 7 = (m1 &&& 0x70).testBit 7 := by rw [hm1]
        _ = (m1.testBit 7 && (0x70 : Nat).testBit 7) := Nat.testBit_land ..
        _ = false := by rw [h112, Bool.and_false]
    have h7e1 : e1.info.attr.testBit 7 = false := by
      rw [ha1, Nat.testBit_lor, h7e0, h7m1]
      rfl
    have h7e' : e'.info.attr.testBit 7 =
        (uncondList (markCatchBlocks g)).any (fun t => t.2.2.1 == i) := by
      rw [ha0']
      cases hcolv : (uncondList (markCatchBlocks g)).any (fun t => t.2.2.1 == i) with
      | false =>
        rw [hcolv] at he2e1
        simp at he2e1
        rw [he2e1]
        exact h7e1
      | true =>
        rw [hcolv] at he2e1
        simp at he2e1
        rw [he2e1]
        show (e1.info.attr ||| ARC_ATTR_UNCONDITIONAL).testBit 7 = true
        rw [Nat.testBit_lor, h7e1]
        decide
    have hsrc' : e'.src = e1.src := by
      rw [hs0]
      cases hcolv : (uncondList (markCatchBlocks g)).any (fun t => t.2.2.1 == i) with
      | false =>
        rw [hcolv] at he2e1
        simp at he2e1
        rw [he2e1]
      | true =>
        rw [hcolv] at he2e1
        simp at he2e1
        rw [he2e1]
        rfl
    have hL : (e'.info.attr &&& ARC_ATTR_UNCONDITIONAL ≠ 0) ↔
        (uncondList (markCatchBlocks g)).any (fun t => t.2.2.1 == i) = true := by
      have hun : ARC_ATTR_UNCONDITIONAL = 2 ^ 7 := by decide
      rw [hun]
      constructor
      · intro hne
        cases hcv : (uncondList (markCatchBlocks g)).any (fun t => t.2.2.1 == i) with
        | true => rfl
        | false =>
          exfalso
          apply hne
          rw [land_two_pow_eq_zero_iff, h7e', hcv]
      · intro hc h0
        rw [land_two_pow_eq_zero_iff, h7e', hc] at h0
        exact Bool.noConfusion h0
    have hcongr : nonFakeOutIdx (markExceptionalBlocks g4) e1.src =
        nonFakeOutIdx (markCatchBlocks g) e1.src := by
      apply nonFakeOutIdx_congr
      · rw [hCe, markUncond_edges_length]
      · intro j b hb
        have hBj := uncondFold_edges (uncondList (markCatchBlocks g))
          (markCatchBlocks g) j
        rw [hb] at hBj
        obtain ⟨b', m, hlook, hm, hs, hd, ha⟩ := hCpt j _ hBj
        have hmz : m = 0 := by rw [← hm, Nat.and_zero]
        refine ⟨b', hlook, ?_, ?_⟩
        · rw [hs]
          cases hcv : (uncondList (markCatchBlocks g)).any (fun t => t.2.2.1 == j) with
          | false => simp [hcv]
          | true => simp [hcv, orUncond]
        · rw [ha, hmz, Nat.or_zero]
          cases hcv : (uncondList (markCatchBlocks g)).any (fun t => t.2.2.1 == j) with
          | false => simp [hcv]
          | true =>
            simp only [hcv, if_pos]
            show (b.info.attr ||| ARC_ATTR_UNCONDITIONAL) &&& ARC_ATTR_FAKE =
              b.info.attr &&& ARC_ATTR_FAKE
            exact or_land_of_disjoint _ _ _ (by decide)
    rw [hsrc', hcongr]
    exact hL.trans (uncondList_mem_any_iff (markCatchBlocks g) i e1 he1 (by
      rw [hAn, hs1]
      exact hsrcs e0 (lget_mem _ _ _ he0)))

/-- The trivial graph after analysis. -/
def analyzedTrivial : Graph := (analyze graphTrivial).getD emptyGraph

/-- Witness for C4 at a concrete input: the single `ON_TREE` arc of the
trivial graph is its source's unique non-fake outgoing edge and carries
`UNCONDITIONAL` after analysis. -/
theorem c4_unconditional_iff_witness :
    ((0x81 : Nat) &&& ARC_ATTR_UNCONDITIONAL ≠ 0) ↔
      nonFakeOutIdx analyzedTrivial 0 = [0] :=
  c4_unconditional_iff graphTrivial analyzedTrivial (by decide) (by decide)
    (by decide) 0 ⟨0, 1, ⟨0, 0, none, 0x81⟩⟩ (by decide) (by decide)

/-! ### C6/C7 machinery: idempotence of repeated map insertion -/

def ainsertAll {α β : Type} [DecidableEq α] (m : List (α × β))
    (ps : List (α × β)) : List (α × β) :=
  ps.foldl (fun m p => ainsert m p.1 p.2) m

theorem ainsertAll_nil {α β : Type} [DecidableEq α] (m : List (α × β)) :
    ainsertAll m [] = m := rfl

theorem ainsertAll_cons {α β : Type} [DecidableEq α] (m : List (α × β))
    (p : α × β) (ps : List (α × β)) :
    ainsertAll m (p :: ps) = ainsertAll (ainsert m p.1 p.2) ps := rfl

theorem alookup_isSome_ainsert {α β : Type} [DecidableEq α]
    (m : List (α × β)) (k k' : α) (v' : β) (h : (alookup m k).isSome) :
    (alookup (ainsert m k' v') k).isSome := by
  by_cases hk : k' = k
  · subst hk
    rw [alookup_ainsert_eq]
    rfl
  · rw [alookup_ainsert_ne _ _ _ _ hk]
    exact h

theorem alookup_isSome_ainsertAll {α β : Type} [DecidableEq α]
    (ps : List (α × β)) (m : List (α × β)) (k : α) (h : (alookup m k).isSome) :
    (alookup (ainsertAll m ps) k).isSome := by
  induction ps generalizing m with
  | nil => exact h
  | cons p rest ih =>
    rw [ainsertAll_cons]
    exact ih _ (alookup_isSome_ainsert _ _ _ _ h)

theorem alookup_ainsertAll_not_mem {α β : Type} [DecidableEq α]
    (ps : List (α × β)) (m : List (α × β)) (k : α)
    (h : k ∉ ps.map Prod.fst) :
    alookup (ainsertAll m ps) k = alookup m k := by
  induction ps generalizing m with
  | nil => rfl
  | cons p rest ih =>
    have hne : p.1 ≠ k := by
      intro hh
      exact h (hh ▸ List.mem_cons_self _ _)
    have hrest : k ∉ rest.map Prod.fst := fun hh =>
      h (List.mem_cons_of_mem _ hh)
    rw [ainsertAll_cons, ih _ hrest, alookup_ainsert_ne _ _ _ _ hne]

theorem ainsertAll_ainsert_of_mem {α β : Type} [DecidableEq α]
    (ps : List (α × β)) (m : List (α × β)) (k : α) (v : β)
    (hmem : (alookup m k).isSome) (hk : k ∈ ps.map Prod.fst) :
    ainsertAll (ainsert m k v) ps = ainsertAll m ps := by
  induction ps generalizing m v with
  | nil => simp at hk
  | cons p rest ih =>
    by_cases h1 : p.1 = k
    · rw [ainsertAll_cons, ainsertAll_cons, h1, ainsert_ainsert_same]
    · have hk' : k ∈ rest.map Prod.fst := by
        rcases List.mem_cons.mp hk with hh | hh
        · exact absurd hh.symm h1
        · exact hh
      rw [ainsertAll_cons, ainsertAll_cons,
        ainsert_comm_of_mem m k p.1 v p.2 (fun hh => h1 hh.symm) hmem,
        ih (ainsert m p.1 p.2) v (alookup_isSome_ainsert _ _ _ _ hmem) hk']

theorem ainsertAll_idem {α β : Type} [DecidableEq α]
    (ps : List (α × β)) (m : List (α × β)) :
    ainsertAll (ainsertAll m ps) ps = ainsertAll m ps := by
  induction ps generalizing m with
  | nil => rfl
  | cons p rest ih =>
    rw [ainsertAll_cons, ainsertAll_cons]
    by_cases hk : p.1 ∈ rest.map Prod.fst
    · have hmem : (alookup (ainsertAll (ainsert m p.1 p.2) rest) p.1).isSome :=
        alookup_isSome_ainsertAll _ _ _ (by rw [alookup_ainsert_eq]; rfl)
      rw [ainsertAll_ainsert_of_mem rest _ _ _ hmem hk]
      exact ih (ainsert m p.1 p.2)
    · have hfix : alookup (ainsertAll (ainsert m p.1 p.2) rest) p.1 = some p.2 := by
        rw [alookup_ainsertAll_not_mem _ _ _ hk, alookup_ainsert_eq]
      rw [ainsert_lookup_self _ _ _ hfix]
      exact ih (ainsert m p.1 p.2)

/-! ### C6/C7 machinery: the GCNO second pass -/

theorem addArcList_idx (arcs : List Arc) (g : Graph) (index : Nat)
    (fnodes : List Nat) (srcNi localIdx : Nat) (realAcc : List Nat)
    (g' : Graph) (realArcs : List Nat)
    (h : addArcList g index fnodes srcNi arcs localIdx realAcc = some (g', realArcs)) :
    g'.gcno_index = g.gcno_index ∧ g'.gcda_index = g.gcda_index := by
  induction arcs generalizing g localIdx realAcc with
  | nil =>
    simp [addArcList] at h
    rw [h.1]
    exact ⟨rfl, rfl⟩
  | cons arc rest ih =>
    unfold addArcList at h
    cases hd : lget fnodes arc.dest_block with
    | none => rw [hd] at h; exact absurd h (by simp)
    | some destNi =>
      rw [hd] at h
      dsimp only at h
      have hv := ih _ _ _ h
      exact ⟨hv.1, hv.2⟩

theorem addArcsAll_idx (arcsList : List Arcs) (g : Graph) (index : Nat)
    (fnodes : List Nat) (realAcc : List Nat) (g' : Graph) (realArcs : List Nat)
    (h : addArcsAll g index fnodes arcsList realAcc = some (g', realArcs)) :
    g'.gcno_index = g.gcno_index ∧ g'.gcda_index = g.gcda_index := by
  induction arcsList generalizing g realAcc with
  | nil =>
    simp [addArcsAll] at h
    rw [h.1]
    exact ⟨rfl, rfl⟩
  | cons arcs rest ih =>
    unfold addArcsAll at h
    cases ha : addArcs g index fnodes arcs realAcc with
    | none => rw [ha] at h; exact absurd h (by simp)
    | some p =>
      rw [ha] at h
      dsimp only at h
      have hstep : p.1.gcno_index = g.gcno_index ∧ p.1.gcda_index = g.gcda_index := by
        unfold addArcs at ha
        cases hs : lget fnodes arcs.src_block with
        | none => rw [hs] at ha; exact absurd ha (by simp)
        | some srcNi =>
          rw [hs] at ha
          dsimp only at ha
          exact addArcList_idx _ _ _ _ _ _ _ _ _ ha
      obtain ⟨h1, h2⟩ := ih p.1 p.2 h
      exact ⟨h1.trans hstep.1, h2.trans hstep.2⟩

theorem addLines_idx (fnodes : List Nat) (g : Graph) (m : List (Nat × List Line)) :
    (addLines g fnodes m).gcno_index = g.gcno_index ∧
    (addLines g fnodes m).gcda_index = g.gcda_index := by
  unfold addLines
  induction fnodes generalizing g with
  | nil => exact ⟨rfl, rfl⟩
  | cons ni rest ih =>
    rw [List.foldl_cons]
    exact ih _

theorem addFunction_idx (g : Graph) (fi : GcnoFunctionIdentity) (g' : Graph)
    (h : addFunction g fi = some g') :
    g'.gcno_index = g.gcno_index ∧ g'.gcda_index = g.gcda_index := by
  unfold addFunction at h
  dsimp only at h
  cases ha : addArcsAll (addBlocks g g.functions.length fi.blocks).1
      g.functions.length (addBlocks g g.functions.length fi.blocks).2 fi.arcs [] with
  | none => rw [ha] at h; exact absurd h (by simp)
  | some p =>
    obtain ⟨g2, realArcs⟩ := p
    rw [ha] at h
    dsimp only at h
    have h' := Option.some.inj h
    have hidx := addArcsAll_idx _ _ _ _ _ _ _ ha
    have hlines := addLines_idx (addBlocks g g.functions.length fi.blocks).2 g2
      (fi.lines.foldl (fun m l => ainsert m l.block_number l.lines) [])
    constructor
    · rw [← h']
      exact hlines.1.trans hidx.1
    · rw [← h']
      exact hlines.2.trans hidx.2

theorem mergeFis_ok_of_stateAfter (fis : List (Nat × GcnoFunctionIdentity))
    (g : Graph) (s : Nat) (g1 : Graph)
    (h : stateAfter (mergeFis g s fis) = some g1) : mergeFis g s fis = .ok g1 := by
  induction fis generalizing g with
  | nil =>
    simp [mergeFis, stateAfter] at h
    rw [mergeFis, h]
  | cons p rest ih =>
    obtain ⟨ident, fi⟩ := p
    unfold mergeFis at h
    dsimp only at h
    cases hl : alookup g.gcno_index fi with
    | some pos =>
      rw [hl] at h
      dsimp only at h
      unfold mergeFis
      dsimp only
      rw [hl]
      exact ih _ h
    | none =>
      rw [hl] at h
      dsimp only at h
      cases hf : addFunction g fi with
      | none => rw [hf] at h; exact absurd h (by simp [stateAfter])
      | some gA =>
        rw [hf] at h
        dsimp only at h
        unfold mergeFis
        dsimp only
        rw [hl, hf]
        dsimp only
        exact ih _ h

theorem mergeFis_gcno_stable (fis : List (Nat × GcnoFunctionIdentity))
    (g : Graph) (s : Nat) (g1 : Graph) (h : mergeFis g s fis = .ok g1) :
    ∀ k p, alookup g.gcno_index k = some p → alookup g1.gcno_index k = some p := by
  induction fis generalizing g with
  | nil =>
    intro k p hk
    have : g = g1 := by
      simpa [mergeFis] using h
    rw [← this]
    exact hk
  | cons q rest ih =>
    obtain ⟨ident, fi⟩ := q
    intro k p hk
    unfold mergeFis at h
    dsimp only at h
    cases hl : alookup g.gcno_index fi with
    | some pos =>
      rw [hl] at h
      exact ih _ h k p hk
    | none =>
      rw [hl] at h
      cases hf : addFunction g fi with
      | none => rw [hf] at h; exact absurd h (by simp)
      | some gA =>
        rw [hf] at h
        dsimp only at h
        have hne : fi ≠ k := by
          intro hh
          rw [hh, hk] at hl
          exact Option.noConfusion hl
        have hidx := addFunction_idx _ _ _ hf
        refine ih _ h k p ?_
        show alookup (ainsert gA.gcno_index fi g.functions.length) k = some p
        rw [alookup_ainsert_ne _ _ _ _ hne, hidx.1]
        exact hk

theorem mergeFis_complete (fis : List (Nat × GcnoFunctionIdentity))
    (g : Graph) (s : Nat) (g1 : Graph) (h : mergeFis g s fis = .ok g1) :
    ∀ x ∈ fis, (alookup g1.gcno_index x.2).isSome := by
  induction fis generalizing g with
  | nil => intro x hx; simp at hx
  | cons q rest ih =>
    obtain ⟨ident, fi⟩ := q
    intro x hx
    unfold mergeFis at h
    dsimp only at h
    cases hl : alookup g.gcno_index fi with
    | some pos =>
      rw [hl] at h
      rcases List.mem_cons.mp hx with hh | hh
      · have := mergeFis_gcno_stable rest _ s g1 h fi pos (by
          show alookup g.gcno_index fi = some pos
          exact hl)
        rw [hh]
        rw [this]
        rfl
      · exact ih _ h x hh
    | none =>
      rw [hl] at h
      cases hf : addFunction g fi with
      | none => rw [hf] at h; exact absurd h (by simp)
      | some gA =>
        rw [hf] at h
        dsimp only at h
        have hidx := addFunction_idx _ _ _ hf
        rcases List.mem_cons.mp hx with hh | hh
        · have hfi : alookup (ainsert gA.gcno_index fi g.functions.length) fi =
              some g.functions.length := alookup_ainsert_eq _ _ _
          have := mergeFis_gcno_stable rest _ s g1 h fi g.functions.length hfi
          rw [hh, this]
          rfl
        · exact ih _ h x hh

/-- The data-index entries a list of collected functions contributes, with
the function positions read off a (final) notes-index. -/
def gcdaPairs (idx : List (GcnoFunctionIdentity × Nat)) (stamp : Nat)
    (fis : List (Nat × GcnoFunctionIdentity)) : List (GcdaFunctionIdentity × Nat) :=
  fis.map (fun p => (GcdaFunctionIdentity.ofFunction stamp p.1 p.2.function,
    (alookup idx p.2).getD 0))

theorem mergeFis_replay (fis : List (Nat × GcnoFunctionIdentity))
    (g : Graph) (s : Nat)
    (hall : ∀ x ∈ fis, (alookup g.gcno_index x.2).isSome) :
    mergeFis g s fis =
      .ok { g with gcda_index := ainsertAll g.gcda_index (gcdaPairs g.gcno_index s fis) } := by
  induction fis generalizing g with
  | nil =>
    show MergeOutcome.ok g = _
    rfl
  | cons q rest ih =>
    obtain ⟨ident, fi⟩ := q
    have hhead : (alookup g.gcno_index fi).isSome :=
      hall (ident, fi) (List.mem_cons_self _ _)
    cases hl : alookup g.gcno_index fi with
    | none => rw [hl] at hhead; exact absurd hhead (by simp)
    | some pos =>
      have hall' : ∀ x ∈ rest, (alookup g.gcno_index x.2).isSome :=
        fun x hx => hall x (List.mem_cons_of_mem _ hx)
      have hih := ih { g with
          gcda_index := ainsert g.gcda_index
            (GcdaFunctionIdentity.ofFunction s ident fi.function) pos }
        hall'
      unfold mergeFis
      dsimp only
      rw [hl]
      dsimp only
      rw [hih]
      have hpair : gcdaPairs g.gcno_index s ((ident, fi) :: rest) =
          (GcdaFunctionIdentity.ofFunction s ident fi.function, pos) ::
            gcdaPairs g.gcno_index s rest := by
        simp [gcdaPairs, hl]
      rw [hpair, ainsertAll_cons]

theorem mergeFis_decompose (fis : List (Nat × GcnoFunctionIdentity))
    (g : Graph) (s : Nat) (g1 : Graph) (h : mergeFis g s fis = .ok g1) :
    g1.gcda_index = ainsertAll g.gcda_index (gcdaPairs g1.gcno_index s fis) := by
  induction fis generalizing g with
  | nil =>
    have : g = g1 := by simpa [mergeFis] using h
    rw [← this]
    rfl
  | cons q rest ih =>
    obtain ⟨ident, fi⟩ := q
    unfold mergeFis at h
    dsimp only at h
    cases hl : alookup g.gcno_index fi with
    | some pos =>
      rw [hl] at h
      have hstable := mergeFis_gcno_stable rest _ s g1 h fi pos (by
        show alookup g.gcno_index fi = some pos
        exact hl)
      have hpair : gcdaPairs g1.gcno_index s ((ident, fi) :: rest) =
          (GcdaFunctionIdentity.ofFunction s ident fi.function, pos) ::
            gcdaPairs g1.gcno_index s rest := by
        simp [gcdaPairs, hstable]
      rw [hpair, ainsertAll_cons]
      exact ih _ h
    | none =>
      rw [hl] at h
      cases hf : addFunction g fi with
      | none => rw [hf] at h; exact absurd h (by simp)
      | some gA =>
        rw [hf] at h
        dsimp only at h
        have hidx := addFunction_idx _ _ _ hf
        have hfi : alookup (ainsert gA.gcno_index fi g.functions.length) fi =
            some g.functions.length := alookup_ainsert_eq _ _ _
        have hstable := mergeFis_gcno_stable rest _ s g1 h fi g.functions.length hfi
        have hpair : gcdaPairs g1.gcno_index s ((ident, fi) :: rest) =
            (GcdaFunctionIdentity.ofFunction s ident fi.function, g.functions.length) ::
              gcdaPairs g1.gcno_index s rest := by
          simp [gcdaPairs, hstable]
        rw [hpair, ainsertAll_cons]
        have hih := ih _ h
        rw [hih]
        show _ = ainsertAll (ainsert g.gcda_index _ _) _
        rw [← hidx.2]

theorem mergeFis_no_error (fis : List (Nat × GcnoFunctionIdentity))
    (g : Graph) (s : Nat) (e : MergeError) (g' : Graph) :
    mergeFis g s fis ≠ .error e g' := by
  induction fis generalizing g with
  | nil => intro h; simp [mergeFis] at h
  | cons q rest ih =>
    obtain ⟨ident, fi⟩ := q
    intro h
    unfold mergeFis at h
    dsimp only at h
    cases hl : alookup g.gcno_index fi with
    | some pos =>
      rw [hl] at h
      dsimp only at h
      exact ih _ h
    | none =>
      rw [hl] at h
      dsimp only at h
      cases hf : addFunction g fi with
      | none => rw [hf] at h; exact MergeOutcome.noConfusion h
      | some gA =>
        rw [hf] at h
        dsimp only at h
        exact ih _ h

theorem mergeGcno_error (g : Graph) (N : Gcov) (e : MergeError) (g' : Graph)
    (h : mergeGcno g N = .error e g') :
    g' = g ∧ ∀ g2 : Graph, mergeGcno g2 N = .error e g2 := by
  unfold mergeGcno at h
  cases hc : collectFis N.records 0 [] with
  | error idx =>
    rw [hc] at h
    injection h with he hg
    refine ⟨hg.symm, fun g2 => ?_⟩
    unfold mergeGcno
    rw [hc]
    dsimp only
    rw [he]
  | ok fis =>
    rw [hc] at h
    exact absurd h (mergeFis_no_error _ _ _ _ _)

/-- Re-merging an already absorbed notes file succeeds with the same graph:
the second pass hits only `Occupied` entries and every data-index insertion
it replays is already present. -/
theorem mergeGcno_ok_idem (g g1 : Graph) (N : Gcov)
    (h : mergeGcno g N = .ok g1) : mergeGcno g1 N = .ok g1 := by
  unfold mergeGcno at h ⊢
  cases hc : collectFis N.records 0 [] with
  | error idx => rw [hc] at h; exact absurd h (by simp)
  | ok fis =>
    rw [hc] at h
    dsimp only at h ⊢
    have hall := mergeFis_complete fis g N.stamp g1 h
    have hdec := mergeFis_decompose fis g N.stamp g1 h
    rw [mergeFis_replay fis g1 N.stamp hall]
    have hX : ainsertAll g1.gcda_index (gcdaPairs g1.gcno_index N.stamp fis) =
        g1.gcda_index := by
      rw [hdec]
      exact ainsertAll_idem _ _
    rw [hX]

theorem mergeGcno_state_idem (g0 g1 : Graph) (N : Gcov)
    (h : stateAfter (mergeGcno g0 N) = some g1) :
    stateAfter (mergeGcno g1 N) = some g1 := by
  cases hm : mergeGcno g0 N with
  | ok gk =>
    rw [hm] at h
    have hk : gk = g1 := Option.some.inj h
    subst hk
    rw [mergeGcno_ok_idem _ _ _ hm]
    rfl
  | error e gk =>
    rw [hm] at h
    have hk : gk = g1 := Option.some.inj h
    subst hk
    obtain ⟨-, hall⟩ := mergeGcno_error _ _ _ _ hm
    rw [hall gk]
    rfl
  | panic =>
    rw [hm] at h
    exact absurd h (by simp [stateAfter])

theorem mergeDispatch_gcno (g : Graph) (N : Gcov) (hty : N.ty = .gcno) :
    mergeDispatch g N = mergeGcno g N := by
  unfold mergeDispatch
  rw [hty]

theorem merge_eq_dispatch_of_version (g1 : Graph) (N : Gcov)
    (hver : g1.version = N.version) : merge g1 N = mergeDispatch g1 N := by
  unfold merge
  by_cases hv1 : g1.version = INVALID_VERSION
  · rw [if_pos hv1]
    have hg : ({ g1 with version := N.version } : Graph) = g1 := by
      rw [← hver]
    rw [hg]
  · rw [if_neg hv1, if_pos hver]

/-- C6: merging the same notes file twice into a graph yields the same
graph state (version, functions, nodes, edges, and both lookup indices) as
merging it once, whenever the first merge returns at all (with success or
with an error); re-merging changes nothing. -/
theorem c6_merge_notes_idempotent (g g1 : Graph) (N : Gcov)
    (hty : N.ty = GcovType.gcno)
    (h : stateAfter (merge g N) = some g1) :
    stateAfter (merge g1 N) = some g1 := by
  unfold merge at h
  by_cases hv : g.version = INVALID_VERSION
  · rw [if_pos hv] at h
    have hver : g1.version = N.version := mergeDispatch_version _ _ _ h
    rw [merge_eq_dispatch_of_version _ _ hver, mergeDispatch_gcno _ _ hty]
    rw [mergeDispatch_gcno _ _ hty] at h
    exact mergeGcno_state_idem _ _ _ h
  · rw [if_neg hv] at h
    by_cases hq : g.version = N.version
    · rw [if_pos hq] at h
      have hver : g1.version = N.version := by
        rw [mergeDispatch_version _ _ _ h, hq]
      rw [merge_eq_dispatch_of_version _ _ hver, mergeDispatch_gcno _ _ hty]
      rw [mergeDispatch_gcno _ _ hty] at h
      exact mergeGcno_state_idem _ _ _ h
    · rw [if_neg hq] at h
      have hg : g = g1 := Option.some.inj h
      subst hg
      unfold merge
      rw [if_neg hv, if_neg hq]
      rfl

theorem c6_merge_notes_idempotent_witness :
    gcovTrivial.ty = GcovType.gcno ∧
      stateAfter (merge graphTrivial gcovTrivial) = some graphTrivial :=
  ⟨rfl, c6_merge_notes_idempotent emptyGraph graphTrivial gcovTrivial rfl (by decide)⟩

/-- C7 (amended): merging a notes file that re-inserts an identical nominal
data-identity into the data-index succeeds — the `Occupied` branch of
`merge_gcno` silently re-points the identity at the existing function and
the `DuplicatedFunction` error is never produced: a successful merge
re-merged verbatim returns `Ok` with the graph unchanged. -/
theorem c7_remerge_ok (g g1 : Graph) (N : Gcov) (hty : N.ty = GcovType.gcno)
    (h : merge g N = .ok g1) : merge g1 N = .ok g1 := by
  unfold merge at h
  by_cases hv : g.version = INVALID_VERSION
  · rw [if_pos hv] at h
    have hst : stateAfter (mergeDispatch { g with version := N.version } N) =
        some g1 := by rw [h]; rfl
    have hver : g1.version = N.version := mergeDispatch_version _ _ _ hst
    rw [merge_eq_dispatch_of_version _ _ hver, mergeDispatch_gcno _ _ hty]
    rw [mergeDispatch_gcno _ _ hty] at h
    exact mergeGcno_ok_idem _ _ _ h
  · rw [if_neg hv] at h
    by_cases hq : g.version = N.version
    · rw [if_pos hq] at h
      have hst : stateAfter (mergeDispatch g N) = some g1 := by rw [h]; rfl
      have hver : g1.version = N.version := by
        rw [mergeDispatch_version _ _ _ hst, hq]
      rw [merge_eq_dispatch_of_version _ _ hver, mergeDispatch_gcno _ _ hty]
      rw [mergeDispatch_gcno _ _ hty] at h
      exact mergeGcno_ok_idem _ _ _ h
    · rw [if_neg hq] at h
      exact absurd h (by simp)

theorem c7_remerge_ok_witness :
    gcovDup.ty = GcovType.gcno ∧ merge emptyGraph gcovDup = .ok graphDup ∧
      merge graphDup gcovDup = .ok graphDup :=
  ⟨rfl, by decide, c7_remerge_ok emptyGraph graphDup gcovDup rfl (by decide)⟩

end Cov
